import Mathlib

/-!
# Verification of `test_common_framework` utilities and the sample handler

A shallow embedding of the Python package `test_common_framework`
(`utils.py`: `safe_json_loads`, `safe_json_dumps`, `retry`, `flatten_dict`,
`get_nested_value`, `chunk_list`) and of the sample project's
`lambda_function.py` (`process_event_data`, `lambda_handler`), together with
theorems settling the specification's claims about them.

Modelling conventions:
* Python values flowing through these helpers are modelled by the mutual
  inductive `PyVal` / `PyList` / `PyFields` (`PyFields` is an association
  list in insertion order, the shape of a Python `dict`; a real `dict`
  additionally has pairwise-distinct keys, which appears as a `Nodup`
  hypothesis where it matters).
* Python exceptions are modelled as a kind (class name) plus message;
  `str(e)` is the message.  Fallible code returns `Except PyExc _`.
* IEEE-754 binary floats are outside the embedding.  The JSON number
  grammar's fraction/exponent forms are parsed exactly into `PyVal.float`
  carrying a rational; Python would round the same literal to the nearest
  binary double.  No claim depends on float values or on Python's
  shortest-round-trip float `repr`.
* `time.sleep` and logging are effect-free in the model: sleeps are
  recorded as a list of requested durations (rationals), log calls are
  dropped.  Durations `delay`/`backoff` are modelled as rationals; the
  concrete scenario values (1.0, 2.0) are exact in binary floating point,
  so rational arithmetic agrees with Python's on them.
-/

/-! ## The Python value domain -/

mutual
/-- A Python value as handled by the utilities: `None`, booleans, ints,
floats (rationals in the model, plus the three non-finite floats the JSON
codec knows), strings, lists, and string-keyed dicts. -/
inductive PyVal where
  | none
  | bool (b : Bool)
  | int (n : Int)
  | float (q : ℚ)
  | nan
  | inf
  | ninf
  | str (s : String)
  | list (xs : PyList)
  | dict (fs : PyFields)
  deriving DecidableEq
/-- A Python list of `PyVal`s (spelled out so that all recursions below are
structural and kernel-reducible). -/
inductive PyList where
  | nil
  | cons (v : PyVal) (tl : PyList)
  deriving DecidableEq
/-- The entries of a Python `dict` in insertion order. -/
inductive PyFields where
  | nil
  | cons (k : String) (v : PyVal) (tl : PyFields)
  deriving DecidableEq
end

/-- A Python exception: class name plus message; `str(e)` yields `msg`. -/
structure PyExc where
  kind : String
  msg : String
  deriving DecidableEq

/-! ## Dict primitives -/

/-- `k in d` / `d[k]` combined: the value at key `k`, if present.  Entries of
a real Python `dict` have distinct keys, so first match is the match. -/
def PyFields.get? : PyFields → String → Option PyVal
  | .nil, _ => Option.none
  | .cons k' v tl, k => if k' = k then some v else tl.get? k

/-- The keys of the entries, in order. -/
def PyFields.keys : PyFields → List String
  | .nil => []
  | .cons k _ tl => k :: tl.keys

/-- Number of entries. -/
def PyFields.length : PyFields → Nat
  | .nil => 0
  | .cons _ _ tl => 1 + tl.length

/-- List concatenation on `PyFields` (Python `items.extend(...)`). -/
def pfAppend : PyFields → PyFields → PyFields
  | .nil, ys => ys
  | .cons k v tl, ys => .cons k v (pfAppend tl ys)

/-- `d[k] = v` on a dict: overwrite in place if `k` is present (keeping its
position), else append at the end. -/
def pyAssign : PyFields → String → PyVal → PyFields
  | .nil, k, v => .cons k v .nil
  | .cons k' v' tl, k, v =>
      if k' = k then .cons k' v tl else .cons k' v' (pyAssign tl k v)

/-- Left fold of `pyAssign`, starting from `acc`. -/
def pydictAux : PyFields → PyFields → PyFields
  | acc, .nil => acc
  | acc, .cons k v tl => pydictAux (pyAssign acc k v) tl

/-- Python `dict(items)`: build a dict by assigning each pair in order.
Duplicate keys collapse to one entry at the first occurrence's position
holding the last occurrence's value. -/
def pydict (fs : PyFields) : PyFields := pydictAux .nil fs

/-! ## `str.split` (Python semantics for a non-empty separator)

Python's `"…".split(sep)` scans left to right for non-overlapping
occurrences of `sep` and cuts there; `"".split(sep) == [""]`.  The fuel
argument only makes the recursion structural; `fuel ≥ length of the
input + 1` always suffices because each step consumes at least one
character. -/

def pySplitAux (sep : List Char) : Nat → List Char → List Char → List (List Char)
  | _, [], acc => [acc.reverse]
  | 0, cs, acc => [acc.reverse ++ cs]
  | fuel + 1, c :: rest, acc =>
      if sep.isPrefixOf (c :: rest) then
        acc.reverse :: pySplitAux sep fuel ((c :: rest).drop sep.length) []
      else
        pySplitAux sep fuel rest (c :: acc)

/-- Python `s.split(sep)` for non-empty `sep`. -/
def pySplit (s sep : String) : List String :=
  (pySplitAux sep.data (s.data.length + 1) s.data []).map (fun l => ⟨l⟩)

/-! ## `get_nested_value` -/

/-- The loop of `get_nested_value`: `result = d; for key in keys: if
isinstance(result, dict) and key in result: result = result[key] else:
return default; return result`. -/
def getNestedLoop : PyVal → List String → PyVal → PyVal
  | result, [], _ => result
  | result, key :: keys, default =>
      match result with
      | .dict fs =>
          match fs.get? key with
          | some v => getNestedLoop v keys default
          | Option.none => default
      | _ => default

/-- `get_nested_value(d, key_path, default, separator)` from `utils.py`:
split the path on the separator and walk the keys, returning `default` as
soon as the current value is not a dict containing the current key. -/
def get_nested_value (d : PyVal) (keyPath : String) (default : PyVal)
    (separator : String) : PyVal :=
  getNestedLoop d (pySplit keyPath separator) default

/-- Specification-side descent: the value reached from `v` by following the
keys in order, `Option.none` if any step is missing or hits a non-dict. -/
def walkPath : PyVal → List String → Option PyVal
  | v, [] => some v
  | v, key :: keys =>
      match v with
      | .dict fs =>
          match fs.get? key with
          | some w => walkPath w keys
          | Option.none => Option.none
      | _ => Option.none

/-! ## `chunk_list` -/

/-- Length of Python `range(start, stop, step)` for `step ≠ 0` (CPython's
formula). -/
def pyRangeLen (start stop step : Int) : Nat :=
  if 0 < step then
    if stop ≤ start then 0 else ((stop - start - 1) / step + 1).toNat
  else
    if start ≤ stop then 0 else ((start - stop - 1) / (-step) + 1).toNat

/-- Python `range(start, stop, step)` as a list, for `step ≠ 0`. -/
def pyRange (start stop step : Int) : List Int :=
  (List.range (pyRangeLen start stop step)).map (fun i => start + step * i)

/-- Python `lst[a:b]` (negative indices count from the end, out-of-range
bounds clamp). -/
def pySlice {α : Type} (lst : List α) (a b : Int) : List α :=
  let n : Int := lst.length
  let a' : Int := if a < 0 then max 0 (n + a) else min a n
  let b' : Int := if b < 0 then max 0 (n + b) else min b n
  (lst.drop a'.toNat).take (b'.toNat - a'.toNat)

/-- `chunk_list(lst, chunk_size)` from `utils.py`:
`[lst[i:i + chunk_size] for i in range(0, len(lst), chunk_size)]`.
`range` with a zero step raises `ValueError`. -/
def chunk_list {α : Type} (lst : List α) (chunkSize : Int) :
    Except PyExc (List (List α)) :=
  if chunkSize = 0 then
    .error ⟨"ValueError", "range() arg 3 must not be zero"⟩
  else
    .ok ((pyRange 0 lst.length chunkSize).map
      (fun i => pySlice lst i (i + chunkSize)))

/-! ## The `retry` decorator

`retry(max_attempts, delay, backoff, exceptions)` wraps a callable.  The
wrapped call runs `func` up to `max_attempts` times; a raised exception
matching `exceptions` is recorded as `last_exception` and, unless this was
the final attempt, the caller sleeps `current_delay` seconds and the delay
is multiplied by `backoff`.  After the loop the recorded exception is
re-raised (`raise last_exception`); if the loop body never ran this is
`raise None`, which itself fails at runtime (`TypeError`), so the wrapper
never returns normally in that case.

The wrapped operation is modelled as `op : Nat → Except PyExc α`, giving the
outcome of its `i`-th invocation (0-based); `exceptions` is modelled as the
predicate `retryable` on exception values.  The model records the requested
sleep durations and how many times `op` was invoked. -/

/-- How a call of the retry-wrapped function ends. -/
inductive RetryOutcome (α : Type) where
  /-- The wrapped function returned `v` and the wrapper returns it. -/
  | ok (v : α)
  /-- The exception `e` escapes the wrapper: either re-raised after
  exhaustion, or never caught because it does not match `exceptions`. -/
  | raised (e : PyExc)
  /-- `raise last_exception` executed with `last_exception = None`
  (in Python this raising of `None` fails with a `TypeError`); the call
  fails without the wrapped function ever being invoked. -/
  | raisedNone
  deriving DecidableEq

/-- Result of one call of the retry-wrapped function: its outcome, the
durations passed to `time.sleep` in order, and the number of invocations of
the wrapped function. -/
structure RetryResult (α : Type) where
  outcome : RetryOutcome α
  sleeps : List ℚ
  calls : Nat
  deriving DecidableEq

/-- The `for attempt in range(max_attempts)` loop of the wrapper.
`remaining` is the number of loop iterations left (structural fuel equal to
`max_attempts - attempt`); `attempt`, `curDelay`, `lastExc`, and the
`sleeps`/`calls` accumulators carry the Python local state. -/
def retryLoop {α : Type} (op : Nat → Except PyExc α) (retryable : PyExc → Bool)
    (maxAttempts : Int) (backoff : ℚ) :
    Nat → Nat → ℚ → Option PyExc → List ℚ → Nat → RetryResult α
  | _, 0, _, lastExc, sleeps, calls =>
      match lastExc with
      | some e => ⟨.raised e, sleeps, calls⟩
      | Option.none => ⟨.raisedNone, sleeps, calls⟩
  | attempt, remaining + 1, curDelay, _, sleeps, calls =>
      match op attempt with
      | .ok v => ⟨.ok v, sleeps, calls + 1⟩
      | .error e =>
          if retryable e then
            if (attempt : Int) < maxAttempts - 1 then
              retryLoop op retryable maxAttempts backoff (attempt + 1) remaining
                (curDelay * backoff) (some e) (sleeps ++ [curDelay]) (calls + 1)
            else
              retryLoop op retryable maxAttempts backoff (attempt + 1) remaining
                curDelay (some e) sleeps (calls + 1)
          else ⟨.raised e, sleeps, calls + 1⟩

/-- One call of the function wrapped by
`retry(max_attempts, delay, backoff, exceptions)`: `current_delay = delay;
last_exception = None`, then the attempt loop.  `range(max_attempts)` has
`max_attempts.toNat` iterations (none when `max_attempts ≤ 0`). -/
def retryRun {α : Type} (maxAttempts : Int) (delay backoff : ℚ)
    (retryable : PyExc → Bool) (op : Nat → Except PyExc α) : RetryResult α :=
  retryLoop op retryable maxAttempts backoff 0 maxAttempts.toNat delay
    Option.none [] 0

/-! ## `flatten_dict`

`flatten_dict(d, parent_key, separator)` builds an item list: for each
`(k, v)` of `d`, `new_key` is `k` when `parent_key` is the empty string
(falsy) and `parent_key + separator + k` otherwise; a dict value contributes
`flatten_dict(v, new_key, separator).items()`, any other value contributes
the single pair `(new_key, v)`.  The function returns `dict(items)`. -/

mutual
/-- The item list accumulated by `flatten_dict`'s loop over `d.items()`. -/
def flattenItems : PyFields → String → String → PyFields
  | .nil, _, _ => .nil
  | .cons k v tl, parentKey, separator =>
      pfAppend (flattenEntry k v parentKey separator)
        (flattenItems tl parentKey separator)
/-- The items contributed by a single entry `(k, v)`. -/
def flattenEntry (k : String) (v : PyVal) (parentKey separator : String) :
    PyFields :=
  let newKey := if parentKey = "" then k else parentKey ++ separator ++ k
  match v with
  | .dict fs => pydict (flattenItems fs newKey separator)
  | _ => .cons newKey v .nil
end

/-- `flatten_dict(d, parent_key, separator)` from `utils.py`. -/
def flatten_dict (d : PyFields) (parentKey separator : String) : PyFields :=
  pydict (flattenItems d parentKey separator)

mutual
/-- Specification side: the non-dict leaves reachable inside a value, each
with the key path leading to it (a non-dict value is itself a leaf with the
empty path). -/
def leavesVal : PyVal → List (List String × PyVal)
  | .dict fs => leavesFields fs
  | v => [([], v)]
/-- The leaves reachable in a dict's entries, paths starting with the
entry's key, in entry order. -/
def leavesFields : PyFields → List (List String × PyVal)
  | .nil => []
  | .cons k v tl =>
      (leavesVal v).map (fun pv => (k :: pv.1, pv.2)) ++ leavesFields tl
end

/-- The flattened key of a path under an already-joined prefix, mirroring
`flatten_dict`'s prefix handling: a step extends an empty prefix to the bare
key and a non-empty prefix to `prefix ++ separator ++ key`. -/
def joinKey (prefixKey separator : String) : List String → String
  | [] => prefixKey
  | k :: ks =>
      joinKey (if prefixKey = "" then k else prefixKey ++ separator ++ k)
        separator ks

/-- Rebuild `PyFields` from a list of pairs (for stating flatten results). -/
def listToFields : List (String × PyVal) → PyFields
  | [] => .nil
  | (k, v) :: tl => .cons k v (listToFields tl)

/-- Counterexample input for the flatten claim: the dict
`{"a": {"b": 1}, "a.b": 2}`, whose two distinct leaves share the flattened
key `"a.b"`. -/
def flattenCollisionInput : PyFields :=
  .cons "a" (.dict (.cons "b" (.int 1) .nil)) (.cons "a.b" (.int 2) .nil)

/-! ## JSON encoding (`json.dumps(obj, default=str)` with its defaults:
`ensure_ascii=True`, separators `", "` and `": "`, `allow_nan=True`)

Characters in `0x20..0x7E` other than `"` and `\` are emitted raw; everything
else is escaped, code points above `0xFFFF` as a UTF-16 surrogate pair, all
in lowercase hex. -/

/-- The decimal digit character `0`–`9`. -/
def digitChar10 (n : Nat) : Char :=
  match n with
  | 0 => '0' | 1 => '1' | 2 => '2' | 3 => '3' | 4 => '4'
  | 5 => '5' | 6 => '6' | 7 => '7' | 8 => '8' | _ => '9'

/-- Lowercase hexadecimal digit character for `n ≤ 15`. -/
def hexDigitChar (n : Nat) : Char :=
  match n with
  | 0 => '0' | 1 => '1' | 2 => '2' | 3 => '3' | 4 => '4'
  | 5 => '5' | 6 => '6' | 7 => '7' | 8 => '8' | 9 => '9'
  | 10 => 'a' | 11 => 'b' | 12 => 'c' | 13 => 'd' | 14 => 'e' | _ => 'f'

/-- Four lowercase hex digits of `n % 0x10000`. -/
def hex4 (n : Nat) : List Char :=
  [hexDigitChar (n / 4096 % 16), hexDigitChar (n / 256 % 16),
   hexDigitChar (n / 16 % 16), hexDigitChar (n % 16)]

/-- Decimal digits of `n`, most significant first.  The fuel only makes the
recursion structural; any `fuel > n` gives the true digit string. -/
def natDigitsAux : Nat → Nat → List Char
  | 0, _ => []
  | fuel + 1, n =>
      if n < 10 then [digitChar10 n]
      else natDigitsAux fuel (n / 10) ++ [digitChar10 (n % 10)]

/-- Decimal digits of `n` (Python `str(n)` for a non-negative int). -/
def natDigits (n : Nat) : List Char := natDigitsAux (n + 1) n

/-- Python `str(n)` for an int. -/
def intRepr (n : Int) : List Char :=
  if n < 0 then '-' :: natDigits (-n).toNat else natDigits n.toNat

/-- Stand-in for Python's float `repr` inside `json.dumps`.  Python prints
the shortest decimal that round-trips through the IEEE double; binary
floating point is outside this embedding, so the model prints the exact
rational (`"<num>.0"` for integral values, `"<num>/<den>"` otherwise).  No
claim depends on this string. -/
def floatRepr (q : ℚ) : List Char :=
  if q.den = 1 then intRepr q.num ++ ['.', '0']
  else intRepr q.num ++ '/' :: natDigits q.den

/-- `json.dumps` escaping of one character (`ensure_ascii=True`). -/
def escapeChar (c : Char) : List Char :=
  if c = '"' then ['\\', '"']
  else if c = '\\' then ['\\', '\\']
  else if c = '\x08' then ['\\', 'b']
  else if c = '\x0c' then ['\\', 'f']
  else if c = '\n' then ['\\', 'n']
  else if c = '\x0d' then ['\\', 'r']
  else if c = '\t' then ['\\', 't']
  else if c.toNat < 0x20 ∨ 0x7E < c.toNat then
    if c.toNat < 0x10000 then '\\' :: 'u' :: hex4 c.toNat
    else
      '\\' :: 'u' :: hex4 (0xD800 + (c.toNat - 0x10000) / 0x400) ++
        '\\' :: 'u' :: hex4 (0xDC00 + (c.toNat - 0x10000) % 0x400)
  else [c]

/-- `escapeChar` applied to every character. -/
def escapeChars : List Char → List Char
  | [] => []
  | c :: cs => escapeChar c ++ escapeChars cs

/-- A JSON string literal: quote, escaped characters, quote. -/
def encodeStr (s : String) : List Char := '"' :: escapeChars s.data ++ ['"']

mutual
/-- The characters `json.dumps(obj, default=str)` emits for a value. -/
def dumpVal : PyVal → List Char
  | .none => 'n' :: ['u', 'l', 'l']
  | .bool true => 't' :: ['r', 'u', 'e']
  | .bool false => 'f' :: ['a', 'l', 's', 'e']
  | .int n => intRepr n
  | .float q => floatRepr q
  | .nan => ['N', 'a', 'N']
  | .inf => ['I', 'n', 'f', 'i', 'n', 'i', 't', 'y']
  | .ninf => ['-', 'I', 'n', 'f', 'i', 'n', 'i', 't', 'y']
  | .str s => encodeStr s
  | .list xs => '[' :: dumpItems xs ++ [']']
  | .dict fs => '\x7b' :: dumpFields fs ++ ['\x7d']
/-- List items joined by `", "`. -/
def dumpItems : PyList → List Char
  | .nil => []
  | .cons v .nil => dumpVal v
  | .cons v tl => dumpVal v ++ ',' :: ' ' :: dumpItems tl
/-- Dict entries as `"key": value` joined by `", "`. -/
def dumpFields : PyFields → List Char
  | .nil => []
  | .cons k v .nil => encodeStr k ++ ':' :: ' ' :: dumpVal v
  | .cons k v tl =>
      encodeStr k ++ ':' :: ' ' :: dumpVal v ++ ',' :: ' ' :: dumpFields tl
end

/-- `json.dumps(obj, default=str)` (total on the modelled value domain). -/
def json_dumps (obj : PyVal) : String := ⟨dumpVal obj⟩

/-- `safe_json_dumps(obj, default)` from `utils.py`.  On the modelled value
domain `json.dumps(obj, default=str)` always succeeds — every `PyVal` is
finite, acyclic, and JSON-encodable, so neither the `default=str` fallback
nor the `except (TypeError, ValueError)` branch returning `default` can
fire — and the result is the encoding. -/
def safe_json_dumps (obj : PyVal) (default : String) : String := json_dumps obj

/-! ## JSON parsing (`json.loads`)

Mirrors the CPython `json` scanner: literals are matched first, then the
number regex `(-?(?:0|[1-9]\d*))(\.\d+)?([eE][-+]?\d+)?`, then the
`NaN` / `Infinity` / `-Infinity` constants.  Strings are strict (raw control
characters below `0x20` are rejected) and `\uXXXX` escapes combine UTF-16
surrogate pairs; lone surrogates (which CPython would keep as unpaired
surrogate code units, unrepresentable in a Lean `String`) are outside the
modelled domain and rejected.  The fuel argument of the value parser only
makes the recursion structural; `input length + 1` always suffices
(`fuelVal` below gives the precise bound). -/

/-- JSON whitespace (space, tab, line feed, carriage return). -/
def isJsonWs (c : Char) : Bool :=
  c = ' ' || c = '\t' || c = '\n' || c = '\x0d'

/-- Skip leading JSON whitespace. -/
def skipWs (cs : List Char) : List Char := cs.dropWhile isJsonWs

/-- Value of a hex digit character, if it is one. -/
def hexVal? (c : Char) : Option Nat :=
  if '0' ≤ c ∧ c ≤ '9' then some (c.toNat - 48)
  else if 'a' ≤ c ∧ c ≤ 'f' then some (c.toNat - 87)
  else if 'A' ≤ c ∧ c ≤ 'F' then some (c.toNat - 55)
  else Option.none

/-- The character a single-letter escape denotes. -/
def escSimple? : Char → Option Char
  | '"' => some '"'
  | '\\' => some '\\'
  | '/' => some '/'
  | 'b' => some '\x08'
  | 'f' => some '\x0c'
  | 'n' => some '\n'
  | 'r' => some '\x0d'
  | 't' => some '\t'
  | _ => Option.none

/-- Parse the body of a JSON string literal (after the opening quote) up to
and including the closing quote, returning the decoded characters and the
remaining input. -/
def parseStringBody : List Char → Option (List Char × List Char)
  | [] => Option.none
  | '"' :: rest => some ([], rest)
  | '\\' :: 'u' :: h1 :: h2 :: h3 :: h4 :: rest =>
      (match hexVal? h1, hexVal? h2, hexVal? h3, hexVal? h4 with
       | some a, some b, some c, some d =>
          let n := ((a * 16 + b) * 16 + c) * 16 + d
          if 0xD800 ≤ n ∧ n < 0xDC00 then
            match rest with
            | '\\' :: 'u' :: g1 :: g2 :: g3 :: g4 :: rest2 =>
                (match hexVal? g1, hexVal? g2, hexVal? g3, hexVal? g4 with
                 | some a2, some b2, some c2, some d2 =>
                    let m := ((a2 * 16 + b2) * 16 + c2) * 16 + d2
                    if 0xDC00 ≤ m ∧ m < 0xE000 then
                      (parseStringBody rest2).map (fun p =>
                        (Char.ofNat (0x10000 + (n - 0xD800) * 0x400 +
                          (m - 0xDC00)) :: p.1, p.2))
                    else Option.none
                 | _, _, _, _ => Option.none)
            | _ => Option.none
          else if 0xDC00 ≤ n ∧ n < 0xE000 then Option.none
          else (parseStringBody rest).map (fun p => (Char.ofNat n :: p.1, p.2))
       | _, _, _, _ => Option.none)
  | '\\' :: e :: rest =>
      (match escSimple? e with
       | some ec => (parseStringBody rest).map (fun p => (ec :: p.1, p.2))
       | Option.none => Option.none)
  | '\\' :: [] => Option.none
  | c :: rest =>
      if c.toNat < 0x20 then Option.none
      else (parseStringBody rest).map (fun p => (c :: p.1, p.2))

/-- `int(digit characters)`, most significant first. -/
def digitsToNat (ds : List Char) : Nat :=
  ds.foldl (fun acc c => acc * 10 + (c.toNat - 48)) 0

/-- The optional leading `-` of the number grammar. -/
def parseSign (cs : List Char) : Bool × List Char :=
  match cs with
  | c :: tl => if c = '-' then (true, tl) else (false, cs)
  | [] => (false, cs)

/-- The optional fraction group `(\.\d+)?`: its digits and the remainder.
A `'.'` not followed by a digit is not consumed (the group simply does not
participate in the regex match). -/
def parseFrac (cs : List Char) : List Char × List Char :=
  match cs with
  | c :: tl =>
      if c = '.' then
        let ds := tl.takeWhile Char.isDigit
        if ds.isEmpty then ([], cs) else (ds, tl.dropWhile Char.isDigit)
      else ([], cs)
  | [] => ([], cs)

/-- The optional exponent group `([eE][-+]?\d+)?`: whether it matched, the
exponent's sign, its digits, and the remainder.  As with the fraction, a
prefix of the group without digits is not consumed. -/
def parseExp (cs : List Char) : Bool × Bool × List Char × List Char :=
  match cs with
  | e :: tl =>
      if e = 'e' ∨ e = 'E' then
        match tl with
        | s :: tl2 =>
            if s = '+' ∨ s = '-' then
              let ds := tl2.takeWhile Char.isDigit
              if ds.isEmpty then (false, false, [], cs)
              else (true, s = '-', ds, tl2.dropWhile Char.isDigit)
            else
              let ds := tl.takeWhile Char.isDigit
              if ds.isEmpty then (false, false, [], cs)
              else (true, false, ds, tl.dropWhile Char.isDigit)
        | [] => (false, false, [], cs)
      else (false, false, [], cs)
  | [] => (false, false, [], cs)

/-- The fraction and exponent groups of the JSON number grammar, given the
already-parsed sign and integer part.  With neither group the value is an
int; otherwise Python would convert to float — modelled as the exact
rational. -/
def parseNumTail (neg : Bool) (ip : Nat) (cs : List Char) :
    Option (PyVal × List Char) :=
  let fr := parseFrac cs
  let ex := parseExp fr.2
  if fr.1.isEmpty ∧ ex.1 = false then
    some (.int (if neg then -(ip : Int) else (ip : Int)), fr.2)
  else
    let mantissa : ℚ :=
      (ip : ℚ) + (digitsToNat fr.1 : ℚ) / (10 : ℚ) ^ fr.1.length
    let expVal : Int :=
      if ex.2.1 then -(digitsToNat ex.2.2.1 : Int) else (digitsToNat ex.2.2.1 : Int)
    some (.float ((if neg then -1 else 1) * mantissa * (10 : ℚ) ^ expVal),
      ex.2.2.2)

/-- The integer part of the number grammar, `0|[1-9]\d*` (no leading
zeros), followed by `parseNumTail`. -/
def parseIntPart (neg : Bool) (cs : List Char) : Option (PyVal × List Char) :=
  match cs with
  | c :: tl =>
      if c = '0' then parseNumTail neg 0 tl
      else if c.isDigit then
        parseNumTail neg (digitsToNat (c :: tl.takeWhile Char.isDigit))
          (tl.dropWhile Char.isDigit)
      else Option.none
  | [] => Option.none

/-- The JSON number regex, anchored at the start of `cs`: optional `-`,
then the integer part and the optional fraction/exponent groups. -/
def parseNumber (cs : List Char) : Option (PyVal × List Char) :=
  let sg := parseSign cs
  parseIntPart sg.1 sg.2

mutual
/-- Parse one JSON value (whitespace before it already skipped), following
the CPython scanner's dispatch order. -/
def parseVal : Nat → List Char → Option (PyVal × List Char)
  | 0, _ => Option.none
  | fuel + 1, cs =>
      match cs with
      | [] => Option.none
      | c :: rest =>
          if c = '"' then
            (parseStringBody rest).map (fun p => (.str ⟨p.1⟩, p.2))
          else if c = '\x7b' then
            let rest1 := skipWs rest
            if rest1.head? = some '\x7d' then some (.dict .nil, rest1.tail)
            else (parseMembers fuel rest1).map
              (fun p => (.dict (pydict p.1), p.2))
          else if c = '[' then
            let rest1 := skipWs rest
            if rest1.head? = some ']' then some (.list .nil, rest1.tail)
            else (parseElements fuel rest1).map
              (fun p => (.list p.1, p.2))
          else if ['n', 'u', 'l', 'l'].isPrefixOf cs then some (.none, cs.drop 4)
          else if ['t', 'r', 'u', 'e'].isPrefixOf cs then
            some (.bool true, cs.drop 4)
          else if ['f', 'a', 'l', 's', 'e'].isPrefixOf cs then
            some (.bool false, cs.drop 5)
          else
            match parseNumber cs with
            | some r => some r
            | Option.none =>
                if ['N', 'a', 'N'].isPrefixOf cs then some (.nan, cs.drop 3)
                else if ['I', 'n', 'f', 'i', 'n', 'i', 't', 'y'].isPrefixOf cs
                  then some (.inf, cs.drop 8)
                else if ['-', 'I', 'n', 'f', 'i', 'n', 'i', 't',
                    'y'].isPrefixOf cs then
                  some (.ninf, cs.drop 9)
                else Option.none
/-- Parse the members of a non-empty JSON object, positioned at the first
key's opening quote, through the closing brace.  The scanner accumulates
`(key, value)` pairs; the caller turns them into a dict. -/
def parseMembers : Nat → List Char → Option (PyFields × List Char)
  | 0, _ => Option.none
  | fuel + 1, cs =>
      match cs with
      | '"' :: rest =>
          (match parseStringBody rest with
           | some (kcs, rest1) =>
              (match skipWs rest1 with
               | ':' :: rest2 =>
                  (match parseVal fuel (skipWs rest2) with
                   | some (v, rest3) =>
                      (match skipWs rest3 with
                       | ',' :: rest4 =>
                          (parseMembers fuel (skipWs rest4)).map
                            (fun p => (PyFields.cons ⟨kcs⟩ v p.1, p.2))
                       | '\x7d' :: rest4 =>
                          some (PyFields.cons ⟨kcs⟩ v .nil, rest4)
                       | _ => Option.none)
                   | Option.none => Option.none)
               | _ => Option.none)
           | Option.none => Option.none)
      | _ => Option.none
/-- Parse the elements of a non-empty JSON array, positioned at the first
element, through the closing bracket. -/
def parseElements : Nat → List Char → Option (PyList × List Char)
  | 0, _ => Option.none
  | fuel + 1, cs =>
      match parseVal fuel cs with
      | some (v, rest) =>
          (match skipWs rest with
           | ',' :: rest2 =>
              (parseElements fuel (skipWs rest2)).map
                (fun p => (PyList.cons v p.1, p.2))
           | ']' :: rest2 => some (PyList.cons v .nil, rest2)
           | _ => Option.none)
      | Option.none => Option.none
end

mutual
/-- Fuel sufficient for `parseVal` on this value's encoding (proved below:
it is at most the encoding's length). -/
def fuelVal : PyVal → Nat
  | .list xs => 1 + fuelElems xs
  | .dict fs => 1 + fuelMembers fs
  | _ => 1
/-- Fuel sufficient for `parseElements` on these items' encoding. -/
def fuelElems : PyList → Nat
  | .nil => 0
  | .cons v tl => 1 + fuelVal v + fuelElems tl
/-- Fuel sufficient for `parseMembers` on these entries' encoding. -/
def fuelMembers : PyFields → Nat
  | .nil => 0
  | .cons _ v tl => 1 + fuelVal v + fuelMembers tl
end

/-- `json.loads(s)`: skip leading whitespace, parse one value, and require
only whitespace to remain (`Extra data` otherwise).  `Option.none` models a
`json.JSONDecodeError`. -/
def json_loads_str (s : String) : Option PyVal :=
  match parseVal (s.data.length + 1) (skipWs s.data) with
  | some (v, rest) => if skipWs rest = [] then some v else Option.none
  | Option.none => Option.none

/-- `json.loads` applied to a Python value: a non-string input raises
`TypeError`, an unparseable string raises `json.JSONDecodeError`. -/
def json_loads : PyVal → Except PyExc PyVal
  | .str s =>
      match json_loads_str s with
      | some v => .ok v
      | Option.none => .error ⟨"JSONDecodeError", "Expecting value"⟩
  | _ => .error ⟨"TypeError", "the JSON object must be str, bytes or bytearray"⟩

/-- `safe_json_loads(json_string, default)` from `utils.py`:
`try: return json.loads(json_string) except (json.JSONDecodeError,
TypeError): return default`. -/
def safe_json_loads (jsonString default : PyVal) : Except PyExc PyVal :=
  match json_loads jsonString with
  | .ok v => .ok v
  | .error e =>
      if e.kind = "JSONDecodeError" ∨ e.kind = "TypeError" then .ok default
      else .error e

/-! ## Value-domain predicates used to state the round-trip -/

/-- Pairwise-distinct keys, as a boolean. -/
def nodupKeys : List String → Bool
  | [] => true
  | k :: ks => !ks.contains k && nodupKeys ks

mutual
/-- The JSON-native fragment of the value domain: no floats or non-finite
floats (binary floating point is outside the embedding), and every dict has
pairwise-distinct keys (as every real Python dict does). -/
def goodJson : PyVal → Bool
  | .float _ => false
  | .nan => false
  | .inf => false
  | .ninf => false
  | .list xs => goodJsonList xs
  | .dict fs => nodupKeys fs.keys && goodJsonFields fs
  | _ => true
/-- `goodJson` for every element. -/
def goodJsonList : PyList → Bool
  | .nil => true
  | .cons v tl => goodJson v && goodJsonList tl
/-- `goodJson` for every entry's value. -/
def goodJsonFields : PyFields → Bool
  | .nil => true
  | .cons _ v tl => goodJson v && goodJsonFields tl
end

/-- The remainder following a printed number in any context the encoder
produces (end of input, or `','`/`']'`/`'\x7d'` next) never extends the
number: its first character, if any, is not a digit and none of `.`, `e`,
`E`. -/
def numTerm (rest : List Char) : Prop :=
  ∀ c, rest.head? = some c →
    c.isDigit = false ∧ c ≠ '.' ∧ c ≠ 'e' ∧ c ≠ 'E'

/-! ## The sample handler (`lambda_function.py`) -/

/-- `test_common_framework.__version__` (from `version.py`). -/
def framework_version : String := "0.3.11"

/-- `event.get(key, default)`: on a non-dict receiver attribute lookup of
`get` raises `AttributeError`. -/
def pyGet (v : PyVal) (key : String) (default : PyVal) : Except PyExc PyVal :=
  match v with
  | .dict fs => .ok ((fs.get? key).getD default)
  | _ => .error ⟨"AttributeError", "object has no attribute get"⟩

/-- `v[key]` on a dict built by the handler itself; the handler only indexes
keys it just inserted, so the miss branch is unreachable there. -/
def pyIndex (v : PyVal) (key : String) : PyVal :=
  match v with
  | .dict fs => (fs.get? key).getD .none
  | _ => .none

/-- `flatten_dict(body)` applied to an arbitrary value: `.items()` on a
non-dict raises `AttributeError`. -/
def flatten_dict_val : PyVal → Except PyExc PyFields
  | .dict fs => .ok (flatten_dict fs "" ".")
  | _ => .error ⟨"AttributeError", "object has no attribute items"⟩

/-- `process_event_data(event)` from `lambda_function.py`: read
`event.get("body", "{}")`, decode it when it is a string
(`safe_json_loads(body, default={})`), extract `user.id` and
`request.action` with defaults `"anonymous"` and `"unknown"`, flatten the
body for logging (the log call itself is dropped in the model, but the
`AttributeError` a non-dict body raises inside `flatten_dict` is kept), and
return the processed mapping. -/
def process_event_data (event : PyVal) : Except PyExc PyVal := do
  let body0 ← pyGet event "body" (.str "\x7b\x7d")
  let body ← match body0 with
    | .str s => safe_json_loads (.str s) (.dict .nil)
    | _ => pure body0
  let user_id := get_nested_value body "user.id" (.str "anonymous") "."
  let action := get_nested_value body "request.action" (.str "unknown") "."
  let _flatData ← flatten_dict_val body
  pure (.dict (.cons "user_id" user_id (.cons "action" action
    (.cons "raw_body" body .nil))))

/-- The fixed response headers. -/
def contentTypeHeaders : PyVal :=
  .dict (.cons "Content-Type" (.str "application/json") .nil)

/-- The 200 response built from the processed event: the serialized body is
`LambdaResponse(status_code=200, message=..., data={user_id, action,
framework_version}).model_dump()` passed through `safe_json_dumps`. -/
def successResponse (processed : PyVal) : PyVal :=
  .dict (.cons "statusCode" (.int 200)
    (.cons "headers" contentTypeHeaders
    (.cons "body" (.str (safe_json_dumps (.dict
      (.cons "status_code" (.int 200)
      (.cons "message" (.str "Request processed successfully")
      (.cons "data" (.dict
        (.cons "user_id" (pyIndex processed "user_id")
        (.cons "action" (pyIndex processed "action")
        (.cons "framework_version" (.str framework_version) .nil))))
      .nil)))) "\x7b\x7d")) .nil)))

/-- The 500 response for a failure `e`: body is
`safe_json_dumps({"error": str(e), "message": "Internal server error"})`. -/
def errorResponse (e : PyExc) : PyVal :=
  .dict (.cons "statusCode" (.int 500)
    (.cons "headers" contentTypeHeaders
    (.cons "body" (.str (safe_json_dumps (.dict
      (.cons "error" (.str e.msg)
      (.cons "message" (.str "Internal server error") .nil))) "\x7b\x7d"))
    .nil)))

/-- `lambda_handler(event, context)` from `lambda_function.py`.  The
logging calls (and the unused `context`) are dropped; the `try` block is
`process_event_data` plus the pure construction of the response (the
pydantic `LambdaResponse` fields are a literal int, a literal string, and a
dict, so its validation cannot fail), and `except Exception` catches every
modelled exception and returns the 500 envelope. -/
def lambda_handler (event : PyVal) : Except PyExc PyVal :=
  match process_event_data event with
  | .ok processed => .ok (successResponse processed)
  | .error e => .ok (errorResponse e)

/-- The handler scenario input:
`{"body": "{\"user\":{\"id\":\"u1\"},\"request\":{\"action\":\"go\"}}"}`. -/
def c8Event : PyVal :=
  .dict (.cons "body"
    (.str "\x7b\"user\":\x7b\"id\":\"u1\"\x7d,\"request\":\x7b\"action\":\"go\"\x7d\x7d")
    .nil)

/-- The `LambdaResponse.model_dump()` the handler serializes for the
scenario input. -/
def c8ResponseData : PyVal :=
  .dict (.cons "status_code" (.int 200)
    (.cons "message" (.str "Request processed successfully")
    (.cons "data" (.dict (.cons "user_id" (.str "u1")
      (.cons "action" (.str "go")
      (.cons "framework_version" (.str framework_version) .nil)))) .nil)))

/-! ## Theorems -/

/-! ### Decimal digits -/

theorem digitChar10_isDigit (n : Nat) : (digitChar10 n).isDigit = true := by
  unfold digitChar10
  split <;> decide

theorem digitChar10_toNat (n : Nat) (h : n < 10) :
    (digitChar10 n).toNat = 48 + n := by
  interval_cases n <;> decide

theorem digitChar10_not_ws (n : Nat) : isJsonWs (digitChar10 n) = false := by
  unfold digitChar10
  split <;> decide

theorem natDigitsAux_fuel_any (n : Nat) : ∀ f₁ f₂ : Nat, n < f₁ → n < f₂ →
    natDigitsAux f₁ n = natDigitsAux f₂ n := by
  induction n using Nat.strong_induction_on with
  | _ n ih =>
      intro f₁ f₂ h₁ h₂
      match f₁, f₂ with
      | g₁ + 1, g₂ + 1 =>
          by_cases hn : n < 10
          · simp [natDigitsAux, hn]
          · have hd : n / 10 < n := Nat.div_lt_self (by omega) (by omega)
            simp only [natDigitsAux, hn, if_false]
            rw [ih (n / 10) hd g₁ g₂ (by omega) (by omega)]

theorem natDigitsAux_ne_nil (fuel n : Nat) (h : n < fuel) :
    natDigitsAux fuel n ≠ [] := by
  match fuel with
  | g + 1 =>
      by_cases hn : n < 10 <;> simp [natDigitsAux, hn]

theorem natDigitsAux_all_digits (fuel : Nat) : ∀ n c,
    c ∈ natDigitsAux fuel n → c.isDigit = true := by
  induction fuel with
  | zero => intro n c hc; simp [natDigitsAux] at hc
  | succ g ih =>
      intro n c hc
      by_cases hn : n < 10
      · simp [natDigitsAux, hn] at hc
        simp [hc, digitChar10_isDigit]
      · simp [natDigitsAux, hn] at hc
        rcases hc with hc | hc
        · exact ih _ _ hc
        · simp [hc, digitChar10_isDigit]

theorem digitsToNat_append_last (l : List Char) (c : Char) :
    digitsToNat (l ++ [c]) = 10 * digitsToNat l + (c.toNat - 48) := by
  simp [digitsToNat, List.foldl_append, Nat.mul_comm]

theorem digitsToNat_natDigitsAux (n : Nat) : ∀ fuel, n < fuel →
    digitsToNat (natDigitsAux fuel n) = n := by
  induction n using Nat.strong_induction_on with
  | _ n ih =>
      intro fuel h
      match fuel with
      | g + 1 =>
          by_cases hn : n < 10
          · simp [natDigitsAux, hn, digitsToNat, digitChar10_toNat n hn]
          · have hd : n / 10 < n := Nat.div_lt_self (by omega) (by omega)
            rw [natDigitsAux, if_neg hn, digitsToNat_append_last,
              natDigitsAux_fuel_any (n / 10) g (n / 10 + 1) (by omega) (by omega),
              ih (n / 10) hd (n / 10 + 1) (by omega),
              digitChar10_toNat (n % 10) (Nat.mod_lt n (by omega))]
            omega

theorem digitsToNat_natDigits (n : Nat) : digitsToNat (natDigits n) = n :=
  digitsToNat_natDigitsAux n (n + 1) (Nat.lt_succ_self n)

/-- The decimal digits of a positive number do not start with `'0'`. -/
theorem natDigitsAux_head_ne_zero (n : Nat) : ∀ fuel, n < fuel → 1 ≤ n →
    ∀ c cs, natDigitsAux fuel n = c :: cs → c ≠ '0' := by
  induction n using Nat.strong_induction_on with
  | _ n ih =>
      intro fuel h h1 c cs heq
      match fuel with
      | g + 1 =>
          by_cases hn : n < 10
          · simp [natDigitsAux, hn] at heq
            rcases heq with ⟨hc, -⟩
            subst hc
            interval_cases n <;> decide
          · rw [natDigitsAux, if_neg hn] at heq
            have hd : n / 10 < n := Nat.div_lt_self (by omega) (by omega)
            have hne := natDigitsAux_ne_nil g (n / 10) (by omega)
            match hh : natDigitsAux g (n / 10) with
            | [] => exact absurd hh hne
            | c' :: cs' =>
                rw [hh] at heq
                simp at heq
                rcases heq with ⟨hc, -⟩
                subst hc
                exact ih (n / 10) hd g (by omega) (by omega) c' cs' hh

theorem pfAppend_nil : ∀ xs : PyFields, pfAppend xs .nil = xs
  | .nil => rfl
  | .cons k v tl => by rw [pfAppend, pfAppend_nil tl]

theorem pfAppend_assoc : ∀ xs ys zs : PyFields,
    pfAppend (pfAppend xs ys) zs = pfAppend xs (pfAppend ys zs)
  | .nil, _, _ => rfl
  | .cons k v tl, ys, zs => by
      simp only [pfAppend, pfAppend_assoc tl ys zs]

theorem keys_pfAppend : ∀ xs ys : PyFields,
    (pfAppend xs ys).keys = xs.keys ++ ys.keys
  | .nil, _ => rfl
  | .cons k v tl, ys => by
      simp [pfAppend, PyFields.keys, keys_pfAppend tl ys]

/-- Assigning a fresh key appends the entry at the end. -/
theorem pyAssign_not_mem : ∀ (xs : PyFields) (k : String) (v : PyVal),
    k ∉ xs.keys → pyAssign xs k v = pfAppend xs (.cons k v .nil)
  | .nil, _, _, _ => rfl
  | .cons k' v' tl, k, v, h => by
      simp [PyFields.keys] at h
      simp [pyAssign, pfAppend, Ne.symm h.1, pyAssign_not_mem tl k v h.2]

/-- Folding `pyAssign` over pairwise-fresh keys just appends them. -/
theorem pydictAux_nodup : ∀ (fs acc : PyFields),
    (acc.keys ++ fs.keys).Nodup → pydictAux acc fs = pfAppend acc fs
  | .nil, acc, _ => by simp [pydictAux, pfAppend_nil]
  | .cons k v tl, acc, h => by
      have hk : k ∉ acc.keys := by
        intro hmem
        exact (List.disjoint_of_nodup_append h) hmem (by simp [PyFields.keys])
      have h' : ((pfAppend acc (.cons k v .nil)).keys ++ tl.keys).Nodup := by
        simpa [keys_pfAppend, PyFields.keys, List.append_assoc] using h
      rw [pydictAux, pyAssign_not_mem acc k v hk, pydictAux_nodup tl _ h',
        pfAppend_assoc]
      rfl

/-- On a genuine dict (pairwise-distinct keys) `dict(items)` is the
identity. -/
theorem pydict_nodup (fs : PyFields) (h : fs.keys.Nodup) : pydict fs = fs := by
  have := pydictAux_nodup fs PyFields.nil (by simpa [PyFields.keys] using h)
  simpa [pydict, pfAppend] using this

theorem getNestedLoop_eq_walkPath (v : PyVal) (keys : List String)
    (default : PyVal) :
    getNestedLoop v keys default = (walkPath v keys).getD default := by
  induction keys generalizing v with
  | nil => rfl
  | cons key keys ih =>
      cases v with
      | dict fs =>
          cases h : fs.get? key with
          | none => simp [getNestedLoop, walkPath, h]
          | some w => simp [getNestedLoop, walkPath, h, ih]
      | none => rfl
      | bool b => rfl
      | int n => rfl
      | float q => rfl
      | nan => rfl
      | inf => rfl
      | ninf => rfl
      | str s => rfl
      | list xs => rfl

/-! ### Number parsing round-trip -/

theorem takeWhile_append_nomatch (p : Char → Bool) :
    ∀ ds rest : List Char, (∀ c ∈ ds, p c = true) →
    (∀ c, rest.head? = some c → p c = false) →
    (ds ++ rest).takeWhile p = ds ∧ (ds ++ rest).dropWhile p = rest := by
  intro ds
  induction ds with
  | nil =>
      intro rest _ hrest
      match rest with
      | [] => simp
      | c :: tl =>
          have := hrest c rfl
          simp [List.takeWhile, List.dropWhile, this]
  | cons d ds ih =>
      intro rest hds hrest
      have hd : p d = true := hds d (by simp)
      have := ih rest (fun c hc => hds c (by simp [hc])) hrest
      simp [List.takeWhile, List.dropWhile, hd, this.1, this.2]

theorem parseFrac_no (cs : List Char)
    (h : ∀ c, cs.head? = some c → c ≠ '.') : parseFrac cs = ([], cs) := by
  match cs with
  | [] => rfl
  | c :: tl => simp [parseFrac, h c rfl]

theorem parseExp_no (cs : List Char)
    (h : ∀ c, cs.head? = some c → c ≠ 'e' ∧ c ≠ 'E') :
    parseExp cs = (false, false, [], cs) := by
  match cs with
  | [] => rfl
  | c :: tl =>
      have := h c rfl
      simp [parseExp, this.1, this.2]

theorem parseNumTail_no_groups (neg : Bool) (ip : Nat) (rest : List Char)
    (h : numTerm rest) :
    parseNumTail neg ip rest =
      some (.int (if neg then -(ip : Int) else (ip : Int)), rest) := by
  have hfr : parseFrac rest = ([], rest) :=
    parseFrac_no rest (fun c hc => (h c hc).2.1)
  have hex : parseExp rest = (false, false, [], rest) :=
    parseExp_no rest (fun c hc => ⟨(h c hc).2.2.1, (h c hc).2.2.2⟩)
  simp [parseNumTail, hfr, hex]

/-- Digit characters are never `'-'`. -/
theorem isDigit_ne_minus (c : Char) (h : c.isDigit = true) : c ≠ '-' := by
  intro hc
  subst hc
  simp [Char.isDigit] at h

theorem parseSign_digit (c : Char) (tl : List Char) (h : c.isDigit = true) :
    parseSign (c :: tl) = (false, c :: tl) := by
  simp [parseSign, isDigit_ne_minus c h]

/-- Parsing the printed digits of `n` (as the whole integer part) recovers
`n`. -/
theorem parseNumber_natDigits (n : Nat) (rest : List Char) (h : numTerm rest) :
    parseNumber (natDigits n ++ rest) = some (.int (n : Int), rest) := by
  have hall := natDigitsAux_all_digits (n + 1) n
  match hnd : natDigits n with
  | [] =>
      exact absurd hnd (natDigitsAux_ne_nil (n + 1) n (Nat.lt_succ_self n))
  | c :: ds =>
      have hc : c.isDigit = true := hall c (by rw [natDigits] at hnd; rw [hnd]; simp)
      have hds : ∀ x ∈ ds, x.isDigit = true := fun x hx => by
        apply hall x
        rw [natDigits] at hnd
        rw [hnd]
        simp [hx]
      have hspan := takeWhile_append_nomatch Char.isDigit ds rest hds
        (fun x hx => (h x hx).1)
      rw [List.cons_append]
      by_cases h0 : c = '0'
      · subst h0
        have hn0 : n = 0 := by
          by_contra hne
          exact natDigitsAux_head_ne_zero n (n + 1) (Nat.lt_succ_self n)
            (by omega) '0' ds (by rw [natDigits] at hnd; exact hnd) rfl
        subst hn0
        have hds0 : ds = [] := by
          rw [natDigits] at hnd
          simp [natDigitsAux] at hnd
          exact hnd.2
        subst hds0
        rw [List.nil_append, parseNumber, parseSign_digit '0' rest (by decide)]
        show parseIntPart false ('0' :: rest) = some (.int (0 : Nat), rest)
        rw [parseIntPart, if_pos rfl, parseNumTail_no_groups false 0 rest h]
        rfl
      · rw [parseNumber, parseSign_digit c (ds ++ rest) hc]
        show parseIntPart false (c :: (ds ++ rest)) = some (.int (n : Nat), rest)
        rw [parseIntPart, if_neg h0, if_pos hc, hspan.1, hspan.2,
          parseNumTail_no_groups false _ rest h]
        have hv : digitsToNat (c :: ds) = n := by
          rw [← hnd, digitsToNat_natDigits]
        rw [hv]
        rfl

/-- Parsing the printed form of an int recovers it. -/
theorem parseNumber_intRepr (n : Int) (rest : List Char) (h : numTerm rest) :
    parseNumber (intRepr n ++ rest) = some (.int n, rest) := by
  by_cases hn : n < 0
  · rw [intRepr, if_pos hn, List.cons_append, parseNumber]
    have hsg : parseSign ('-' :: (natDigits (-n).toNat ++ rest)) =
        (true, natDigits (-n).toNat ++ rest) := by simp [parseSign]
    rw [hsg]
    have hm : 1 ≤ (-n).toNat := by omega
    have hall := natDigitsAux_all_digits ((-n).toNat + 1) (-n).toNat
    match hnd : natDigits (-n).toNat with
    | [] =>
        exact absurd hnd (natDigitsAux_ne_nil ((-n).toNat + 1) (-n).toNat
          (Nat.lt_succ_self _))
    | c :: ds =>
        have hc : c.isDigit = true := hall c
          (by rw [natDigits] at hnd; rw [hnd]; simp)
        have hds : ∀ x ∈ ds, x.isDigit = true := fun x hx => by
          apply hall x
          rw [natDigits] at hnd
          rw [hnd]
          simp [hx]
        have hspan := takeWhile_append_nomatch Char.isDigit ds rest hds
          (fun x hx => (h x hx).1)
        have hc0 : c ≠ '0' := natDigitsAux_head_ne_zero (-n).toNat
          ((-n).toNat + 1) (Nat.lt_succ_self _) hm c ds
          (by rw [natDigits] at hnd; exact hnd)
        show parseIntPart true (c :: (ds ++ rest)) = some (.int n, rest)
        rw [parseIntPart, if_neg hc0, if_pos hc, hspan.1, hspan.2,
          parseNumTail_no_groups true _ rest h]
        have hv : digitsToNat (c :: ds) = (-n).toNat := by
          rw [← hnd, digitsToNat_natDigits]
        have hcast : -(((-n).toNat : Nat) : Int) = n := by omega
        simp [hv, hcast]
        omega
  · rw [intRepr, if_neg hn, parseNumber_natDigits n.toNat rest h]
    have : ((n.toNat : Nat) : Int) = n := by omega
    rw [this]
/-! ### String escaping round-trip -/

theorem hexVal_hexDigitChar (m : Nat) (h : m < 16) :
    hexVal? (hexDigitChar m) = some m := by
  interval_cases m <;> decide

/-- Recomposing the four hex digits of `t < 0x10000` gives back `t`. -/
theorem hex4_reconstruct (t : Nat) (h : t < 0x10000) :
    ((t / 4096 % 16 * 16 + t / 256 % 16) * 16 + t / 16 % 16) * 16 + t % 16
      = t := by
  omega

/-- A Lean `Char` is a Unicode scalar value: never a surrogate, always below
`0x110000`. -/
theorem char_scalar (c : Char) :
    c.toNat < 0xD800 ∨ (0xDFFF < c.toNat ∧ c.toNat < 0x110000) :=
  c.valid

theorem parseStringBody_raw (c : Char) (rest : List Char) (h1 : c ≠ '"')
    (h2 : c ≠ '\\') :
    parseStringBody (c :: rest) = if c.toNat < 0x20 then Option.none
      else (parseStringBody rest).map (fun p => (c :: p.1, p.2)) := by
  rw [parseStringBody.eq_def]
  split
  · rename_i heq
    exact absurd heq.symm (by simp)
  · rename_i heq
    rw [List.cons.injEq] at heq
    exact absurd heq.1 h1
  · rename_i heq
    rw [List.cons.injEq] at heq
    exact absurd heq.1 h2
  · rename_i heq
    rw [List.cons.injEq] at heq
    exact absurd heq.1 h2
  · rename_i heq
    rw [List.cons.injEq] at heq
    exact absurd heq.1 h2
  · rename_i heq
    rw [List.cons.injEq] at heq
    rw [heq.1, heq.2]

/-- Decoding the escape of one character prepends that character: the
central step of the string round-trip. -/
theorem parseStringBody_escapeChar (c : Char) (tail : List Char) :
    parseStringBody (escapeChar c ++ tail) =
      (parseStringBody tail).map (fun p => (c :: p.1, p.2)) := by
  have hscalar := char_scalar c
  unfold escapeChar
  split_ifs with hq hbs hb hf hn hr ht hctl hbmp
  · subst hq
    simp [parseStringBody, escSimple?]
  · subst hbs
    simp [parseStringBody, escSimple?]
  · subst hb
    simp [parseStringBody, escSimple?]
  · subst hf
    simp [parseStringBody, escSimple?]
  · subst hn
    simp [parseStringBody, escSimple?]
  · subst hr
    simp [parseStringBody, escSimple?]
  · subst ht
    simp [parseStringBody, escSimple?]
  · -- `\uXXXX` escape of a BMP character
    have hrec := hex4_reconstruct c.toNat hbmp
    simp only [hex4, List.cons_append, List.nil_append, parseStringBody,
      hexVal_hexDigitChar _ (Nat.mod_lt _ (by omega)),
      hexVal_hexDigitChar _ (Nat.mod_lt _ (by omega)),
      hexVal_hexDigitChar _ (Nat.mod_lt _ (by omega)),
      hexVal_hexDigitChar _ (Nat.mod_lt _ (by omega))]
    rw [hrec, if_neg (by omega), if_neg (by omega), Char.ofNat_toNat]
  · -- surrogate-pair escape of an astral character
    have hlt : c.toNat < 0x110000 := by omega
    have hge : 0x10000 ≤ c.toNat := by omega
    have hhi : 0xD800 + (c.toNat - 0x10000) / 0x400 < 0x10000 := by omega
    have hlo : 0xDC00 + (c.toNat - 0x10000) % 0x400 < 0x10000 := by omega
    have hrec1 := hex4_reconstruct (0xD800 + (c.toNat - 0x10000) / 0x400) hhi
    have hrec2 := hex4_reconstruct (0xDC00 + (c.toNat - 0x10000) % 0x400) hlo
    simp only [hex4, List.cons_append, List.nil_append, List.append_assoc,
      parseStringBody,
      hexVal_hexDigitChar _ (Nat.mod_lt _ (by omega)),
      hexVal_hexDigitChar _ (Nat.mod_lt _ (by omega)),
      hexVal_hexDigitChar _ (Nat.mod_lt _ (by omega)),
      hexVal_hexDigitChar _ (Nat.mod_lt _ (by omega))]
    rw [hrec1, if_pos (by omega), hrec2, if_pos (by omega)]
    have hchar : 0x10000 + (0xD800 + (c.toNat - 0x10000) / 0x400 - 0xD800) *
        0x400 + (0xDC00 + (c.toNat - 0x10000) % 0x400 - 0xDC00) = c.toNat := by
      omega
    rw [hchar, Char.ofNat_toNat]
  · rw [List.singleton_append, parseStringBody_raw c tail hq hbs,
      if_neg (by omega)]

/-- Decoding the escaped characters of `l` followed by a closing quote
recovers `l` and the remaining input. -/
theorem parseStringBody_escapeChars (l : List Char) : ∀ rest : List Char,
    parseStringBody (escapeChars l ++ '"' :: rest) = some (l, rest) := by
  induction l with
  | nil => intro rest; rfl
  | cons c l ih =>
      intro rest
      rw [escapeChars, List.append_assoc, parseStringBody_escapeChar c _,
        ih rest]
      rfl
/-! ### Heads, whitespace, and fuel bounds for the value round-trip -/

theorem isDigit_ne_of (c d : Char) (h : c.isDigit = true)
    (hd : d.isDigit = false) : c ≠ d := by
  intro he
  subst he
  simp [h] at hd

theorem isDigit_not_ws (c : Char) (h : c.isDigit = true) :
    isJsonWs c = false := by
  cases hws : isJsonWs c with
  | false => rfl
  | true =>
      exfalso
      simp [isJsonWs] at hws
      rcases hws with ((h' | h') | h') | h' <;> (subst h'; simp at h)

theorem isPrefixOf_cons_ne (a c : Char) (as cs : List Char) (h : a ≠ c) :
    (a :: as).isPrefixOf (c :: cs) = false := by
  simp [List.isPrefixOf, h]

theorem isPrefixOf_append_self (l r : List Char) :
    l.isPrefixOf (l ++ r) = true := by
  induction l with
  | nil => simp [List.isPrefixOf]
  | cons c l ih => simp [List.isPrefixOf, ih]

theorem skipWs_cons (c : Char) (l : List Char) (h : isJsonWs c = false) :
    skipWs (c :: l) = c :: l := by
  simp [skipWs, List.dropWhile, h]

theorem skipWs_space (l : List Char) : skipWs (' ' :: l) = skipWs l := by
  simp [skipWs, List.dropWhile, isJsonWs]

theorem numTerm_nil : numTerm [] := by
  intro c hc
  simp at hc

theorem numTerm_cons (c : Char) (l : List Char) (h1 : c.isDigit = false)
    (h2 : c ≠ '.') (h3 : c ≠ 'e') (h4 : c ≠ 'E') : numTerm (c :: l) := by
  intro x hx
  simp at hx
  subst hx
  exact ⟨h1, h2, h3, h4⟩

theorem natDigits_head_digit (n : Nat) :
    ∃ c cs, natDigits n = c :: cs ∧ c.isDigit = true := by
  match hnd : natDigits n with
  | [] => exact absurd hnd (natDigitsAux_ne_nil (n + 1) n (Nat.lt_succ_self n))
  | c :: cs =>
      refine ⟨c, cs, rfl, ?_⟩
      apply natDigitsAux_all_digits (n + 1) n c
      rw [natDigits] at hnd
      rw [hnd]
      simp

/-- The printed form of an int starts with a digit, or with `'-'` followed
by a digit. -/
theorem intRepr_shape (n : Int) :
    ∃ c cs, intRepr n = c :: cs ∧ (c.isDigit = true ∨
      (c = '-' ∧ ∃ d ds, cs = d :: ds ∧ d.isDigit = true)) := by
  rw [intRepr]
  by_cases hn : n < 0
  · rw [if_pos hn]
    obtain ⟨d, ds, hd, hdig⟩ := natDigits_head_digit (-n).toNat
    exact ⟨'-', natDigits (-n).toNat, rfl, Or.inr ⟨rfl, d, ds, hd, hdig⟩⟩
  · rw [if_neg hn]
    obtain ⟨c, cs, hd, hdig⟩ := natDigits_head_digit n.toNat
    exact ⟨c, cs, hd, Or.inl hdig⟩

/-- Every encoded value starts with a character that is not whitespace and
not a closing bracket or brace. -/
theorem dumpVal_head (v : PyVal) :
    ∃ c cs, dumpVal v = c :: cs ∧ isJsonWs c = false ∧ c ≠ ']' ∧ c ≠ '\x7d' := by
  cases v with
  | none => refine ⟨'n', _, rfl, ?_, ?_, ?_⟩ <;> decide
  | bool b =>
      cases b with
      | true => refine ⟨'t', _, rfl, ?_, ?_, ?_⟩ <;> decide
      | false => refine ⟨'f', _, rfl, ?_, ?_, ?_⟩ <;> decide
  | int n =>
      obtain ⟨c, cs, hd, hshape⟩ := intRepr_shape n
      refine ⟨c, cs, hd, ?_, ?_, ?_⟩
      · rcases hshape with h | ⟨h, -⟩
        · exact isDigit_not_ws c h
        · subst h; decide
      · rcases hshape with h | ⟨h, -⟩
        · exact isDigit_ne_of c ']' h (by decide)
        · subst h; decide
      · rcases hshape with h | ⟨h, -⟩
        · exact isDigit_ne_of c '\x7d' h (by decide)
        · subst h; decide
  | float q =>
      show ∃ c cs, floatRepr q = c :: cs ∧ _
      rw [floatRepr]
      obtain ⟨c, cs, hd, hshape⟩ := intRepr_shape q.num
      have hhead : ∀ tail : List Char, ∃ c' cs', intRepr q.num ++ tail = c' :: cs' ∧
          isJsonWs c' = false ∧ c' ≠ ']' ∧ c' ≠ '\x7d' := by
        intro tail
        refine ⟨c, cs ++ tail, by rw [hd, List.cons_append], ?_, ?_, ?_⟩
        · rcases hshape with h | ⟨h, -⟩
          · exact isDigit_not_ws c h
          · subst h; decide
        · rcases hshape with h | ⟨h, -⟩
          · exact isDigit_ne_of c ']' h (by decide)
          · subst h; decide
        · rcases hshape with h | ⟨h, -⟩
          · exact isDigit_ne_of c '\x7d' h (by decide)
          · subst h; decide
      by_cases hq : q.den = 1
      · rw [if_pos hq]; exact hhead _
      · rw [if_neg hq]; exact hhead _
  | nan => refine ⟨'N', _, rfl, ?_, ?_, ?_⟩ <;> decide
  | inf => refine ⟨'I', _, rfl, ?_, ?_, ?_⟩ <;> decide
  | ninf => refine ⟨'-', _, rfl, ?_, ?_, ?_⟩ <;> decide
  | str s => refine ⟨'"', _, rfl, ?_, ?_, ?_⟩ <;> decide
  | list xs => refine ⟨'[', _, rfl, ?_, ?_, ?_⟩ <;> decide
  | dict fs => refine ⟨'\x7b', _, rfl, ?_, ?_, ?_⟩ <;> decide

theorem skipWs_dumpVal (v : PyVal) (rest : List Char) :
    skipWs (dumpVal v ++ rest) = dumpVal v ++ rest := by
  obtain ⟨c, cs, hd, hws, -, -⟩ := dumpVal_head v
  rw [hd, List.cons_append, skipWs_cons _ _ hws]

theorem nodupKeys_iff (l : List String) : nodupKeys l = true ↔ l.Nodup := by
  induction l with
  | nil => simp [nodupKeys]
  | cons k ks ih => simp [nodupKeys, ih, List.contains, List.elem_iff]

mutual
theorem fuelVal_le_length : ∀ v : PyVal, fuelVal v ≤ (dumpVal v).length
  | .none => by simp [fuelVal, dumpVal]
  | .bool true => by simp [fuelVal, dumpVal]
  | .bool false => by simp [fuelVal, dumpVal]
  | .int n => by
      obtain ⟨c, cs, hd, -⟩ := intRepr_shape n
      show fuelVal (.int n) ≤ (intRepr n).length
      rw [show fuelVal (.int n) = 1 from rfl, hd]
      simp
  | .float q => by
      obtain ⟨c, cs, hd, -⟩ := intRepr_shape q.num
      show fuelVal (.float q) ≤ (floatRepr q).length
      rw [show fuelVal (.float q) = 1 from rfl, floatRepr]
      by_cases hq : q.den = 1 <;> simp [hq, hd]
  | .nan => by decide
  | .inf => by decide
  | .ninf => by decide
  | .str s => by
      show fuelVal (.str s) ≤ (encodeStr s).length
      rw [show fuelVal (.str s) = 1 from rfl, encodeStr]
      simp
  | .list xs => by
      have h := fuelElems_le_length xs
      show fuelVal (.list xs) ≤ (dumpVal (.list xs)).length
      rw [show fuelVal (.list xs) = 1 + fuelElems xs from rfl,
        show dumpVal (.list xs) = '[' :: dumpItems xs ++ [']'] from rfl]
      simp
      omega
  | .dict fs => by
      have h := fuelMembers_le_length fs
      show fuelVal (.dict fs) ≤ (dumpVal (.dict fs)).length
      rw [show fuelVal (.dict fs) = 1 + fuelMembers fs from rfl,
        show dumpVal (.dict fs) = '\x7b' :: dumpFields fs ++ ['\x7d'] from rfl]
      simp
      omega
theorem fuelElems_le_length : ∀ xs : PyList,
    fuelElems xs ≤ (dumpItems xs).length + 1
  | .nil => by decide
  | .cons v .nil => by
      have h := fuelVal_le_length v
      rw [show fuelElems (.cons v .nil) = 1 + fuelVal v + 0 from rfl,
        show dumpItems (.cons v .nil) = dumpVal v from rfl]
      omega
  | .cons v (.cons w tl) => by
      have h1 := fuelVal_le_length v
      have h2 := fuelElems_le_length (.cons w tl)
      rw [show fuelElems (.cons v (.cons w tl)) =
          1 + fuelVal v + fuelElems (.cons w tl) from rfl,
        show dumpItems (.cons v (.cons w tl)) =
          dumpVal v ++ ',' :: ' ' :: dumpItems (.cons w tl) from rfl]
      simp
      omega
theorem fuelMembers_le_length : ∀ fs : PyFields,
    fuelMembers fs ≤ (dumpFields fs).length + 1
  | .nil => by decide
  | .cons k v .nil => by
      have h := fuelVal_le_length v
      rw [show fuelMembers (.cons k v .nil) = 1 + fuelVal v + 0 from rfl,
        show dumpFields (.cons k v .nil) =
          encodeStr k ++ ':' :: ' ' :: dumpVal v from rfl]
      simp
      omega
  | .cons k v (.cons k2 w tl) => by
      have h1 := fuelVal_le_length v
      have h2 := fuelMembers_le_length (.cons k2 w tl)
      rw [show fuelMembers (.cons k v (.cons k2 w tl)) =
          1 + fuelVal v + fuelMembers (.cons k2 w tl) from rfl,
        show dumpFields (.cons k v (.cons k2 w tl)) = encodeStr k ++
          ':' :: ' ' :: dumpVal v ++ ',' :: ' ' :: dumpFields (.cons k2 w tl)
          from rfl]
      simp
      omega
end
/-! ### Shape lemmas for the encoder output -/

theorem dumpItems_cons_eq (v : PyVal) (tl : PyList) :
    ∃ Y, dumpItems (.cons v tl) = dumpVal v ++ Y := by
  cases tl with
  | nil => exact ⟨[], by rw [List.append_nil]; rfl⟩
  | cons w tl' => exact ⟨_, rfl⟩

theorem dumpFields_cons_shape (k : String) (v : PyVal) (tl : PyFields) :
    ∃ Z, dumpFields (.cons k v tl) = '"' :: Z := by
  cases tl with
  | nil => exact ⟨_, rfl⟩
  | cons k2 w tl' => exact ⟨_, rfl⟩

theorem skipWs_dumpItems (v : PyVal) (tl : PyList) (rest : List Char) :
    skipWs (dumpItems (.cons v tl) ++ rest) = dumpItems (.cons v tl) ++ rest := by
  obtain ⟨Y, hY⟩ := dumpItems_cons_eq v tl
  rw [hY, List.append_assoc, skipWs_dumpVal]

theorem skipWs_dumpFields (k : String) (v : PyVal) (tl : PyFields)
    (rest : List Char) :
    skipWs (dumpFields (.cons k v tl) ++ rest) =
      dumpFields (.cons k v tl) ++ rest := by
  obtain ⟨Z, hZ⟩ := dumpFields_cons_shape k v tl
  rw [hZ, List.cons_append, skipWs_cons _ _ (by decide)]

/-- A value whose encoding starts with a digit or minus sign is dispatched
by the scanner to the number branch. -/
theorem parseVal_number (fuel : Nat) (c : Char) (cs' rest : List Char)
    (v : PyVal)
    (hshape : c.isDigit = true ∨
      (c = '-' ∧ ∃ d ds, cs' = d :: ds ∧ d.isDigit = true))
    (hn : parseNumber (c :: cs') = some (v, rest)) :
    parseVal (fuel + 1) (c :: cs') = some (v, rest) := by
  have hne : ∀ d : Char, d.isDigit = false → d ≠ '-' → c ≠ d := by
    intro d hd hdm he
    rcases hshape with h | ⟨h, -⟩
    · exact absurd h (by rw [he, hd]; simp)
    · exact hdm (by rw [← he, h])
  have h1 : c ≠ '"' := hne '"' (by decide) (by decide)
  have h2 : c ≠ '\x7b' := hne '\x7b' (by decide) (by decide)
  have h3 : c ≠ '[' := hne '[' (by decide) (by decide)
  have h4 : c ≠ 'n' := hne 'n' (by decide) (by decide)
  have h5 : c ≠ 't' := hne 't' (by decide) (by decide)
  have h6 : c ≠ 'f' := hne 'f' (by decide) (by decide)
  simp only [parseVal]
  rw [if_neg h1, if_neg h2, if_neg h3,
    isPrefixOf_cons_ne 'n' c _ _ (Ne.symm h4),
    isPrefixOf_cons_ne 't' c _ _ (Ne.symm h5),
    isPrefixOf_cons_ne 'f' c _ _ (Ne.symm h6)]
  simp [hn]
/-- The central round-trip: parsing the encoding of a JSON-native value
(with any remainder in the contexts the encoder produces) succeeds and
recovers the value, for any fuel at least the value's `fuelVal`. -/
theorem parse_dump : ∀ fuel : Nat,
    (∀ (v : PyVal) (rest : List Char), goodJson v = true → fuelVal v ≤ fuel →
      numTerm rest → parseVal fuel (dumpVal v ++ rest) = some (v, rest)) ∧
    (∀ (xs : PyList) (rest : List Char), xs ≠ PyList.nil →
      goodJsonList xs = true → fuelElems xs ≤ fuel →
      parseElements fuel (dumpItems xs ++ ']' :: rest) = some (xs, rest)) ∧
    (∀ (fs : PyFields) (rest : List Char), fs ≠ PyFields.nil →
      goodJsonFields fs = true → fuelMembers fs ≤ fuel →
      parseMembers fuel (dumpFields fs ++ '\x7d' :: rest) = some (fs, rest)) := by
  intro fuel
  induction fuel with
  | zero =>
      refine ⟨?_, ?_, ?_⟩
      · intro v rest _ hf _
        exfalso
        cases v <;> (simp [fuelVal] at hf)
      · intro xs rest hne _ hf
        exfalso
        cases xs with
        | nil => exact hne rfl
        | cons v tl => simp [fuelElems] at hf
      · intro fs rest hne _ hf
        exfalso
        cases fs with
        | nil => exact hne rfl
        | cons k v tl => simp [fuelMembers] at hf
  | succ fuel ih =>
      obtain ⟨ihv, ihe, ihm⟩ := ih
      refine ⟨?_, ?_, ?_⟩
      · -- one value
        intro v rest hg hf hnum
        cases v with
        | none => simp [dumpVal, parseVal, List.isPrefixOf]
        | bool b =>
            cases b <;> simp [dumpVal, parseVal, List.isPrefixOf]
        | int n =>
            obtain ⟨c, cs', hd, hshape⟩ := intRepr_shape n
            have hnum' := parseNumber_intRepr n rest hnum
            rw [show dumpVal (.int n) = intRepr n from rfl, hd,
              List.cons_append] at *
            apply parseVal_number fuel c (cs' ++ rest) rest (.int n)
            · rcases hshape with h | ⟨h, d, ds, hds, hdig⟩
              · exact Or.inl h
              · exact Or.inr ⟨h, d, ds ++ rest, by rw [hds, List.cons_append], hdig⟩
            · exact hnum'
        | float q => simp [goodJson] at hg
        | nan => simp [goodJson] at hg
        | inf => simp [goodJson] at hg
        | ninf => simp [goodJson] at hg
        | str s =>
            rw [show dumpVal (.str s) ++ rest =
              '"' :: (escapeChars s.data ++ '"' :: rest) from by
                rw [show dumpVal (.str s) = encodeStr s from rfl, encodeStr]
                simp]
            simp only [parseVal, if_pos rfl]
            rw [parseStringBody_escapeChars s.data rest]
            rfl
        | list xs =>
            cases xs with
            | nil =>
                rw [show dumpVal (.list .nil) = ['[', ']'] from rfl]
                simp [parseVal, List.isPrefixOf, skipWs, List.dropWhile,
                  isJsonWs]
            | cons v tl =>
                have hg' : goodJsonList (PyList.cons v tl) = true := by
                  simpa [goodJson] using hg
                have hf' : fuelElems (PyList.cons v tl) ≤ fuel := by
                  rw [show fuelVal (.list (PyList.cons v tl)) =
                    1 + fuelElems (PyList.cons v tl) from rfl] at hf
                  omega
                rw [show dumpVal (.list (PyList.cons v tl)) ++ rest =
                  '[' :: (dumpItems (PyList.cons v tl) ++ ']' :: rest) from by
                    rw [show dumpVal (.list (PyList.cons v tl)) =
                      '[' :: dumpItems (PyList.cons v tl) ++ [']'] from rfl]
                    simp]
                simp only [parseVal]
                rw [skipWs_dumpItems v tl (']' :: rest)]
                obtain ⟨Y, hY⟩ := dumpItems_cons_eq v tl
                obtain ⟨c0, cs0, hd0, -, hbr0, -⟩ := dumpVal_head v
                have hhead : (dumpItems (PyList.cons v tl) ++
                    ']' :: rest).head? = some c0 := by
                  rw [hY, hd0]
                  simp
                have hmain : ((dumpItems (PyList.cons v tl) ++
                    ']' :: rest).head? = some ']') = False := by
                  rw [hhead]
                  simp [hbr0]
                simp only [show (('[' : Char) = '"') = False from by decide,
                  show (('[' : Char) = '\x7b') = False from by decide,
                  show (('[' : Char) = '[') = True from by simp,
                  if_true, if_false, hmain,
                  ihe (PyList.cons v tl) rest (by simp) hg' hf']
                rfl
        | dict fs =>
            cases fs with
            | nil =>
                rw [show dumpVal (.dict .nil) = ['\x7b', '\x7d'] from rfl]
                simp [parseVal, List.isPrefixOf, skipWs, List.dropWhile,
                  isJsonWs]
            | cons k v tl =>
                have hg2 : nodupKeys (PyFields.cons k v tl).keys = true ∧
                    goodJsonFields (PyFields.cons k v tl) = true := by
                  have := hg
                  rw [show goodJson (.dict (PyFields.cons k v tl)) =
                    (nodupKeys (PyFields.cons k v tl).keys &&
                     goodJsonFields (PyFields.cons k v tl)) from rfl] at this
                  exact ⟨by simp_all, by simp_all⟩
                have hf' : fuelMembers (PyFields.cons k v tl) ≤ fuel := by
                  rw [show fuelVal (.dict (PyFields.cons k v tl)) =
                    1 + fuelMembers (PyFields.cons k v tl) from rfl] at hf
                  omega
                rw [show dumpVal (.dict (PyFields.cons k v tl)) ++ rest =
                  '\x7b' :: (dumpFields (PyFields.cons k v tl) ++ '\x7d' :: rest)
                  from by
                    rw [show dumpVal (.dict (PyFields.cons k v tl)) =
                      '\x7b' :: dumpFields (PyFields.cons k v tl) ++ ['\x7d']
                      from rfl]
                    simp]
                simp only [parseVal]
                rw [skipWs_dumpFields k v tl ('\x7d' :: rest)]
                obtain ⟨Z, hZ⟩ := dumpFields_cons_shape k v tl
                have hhead : (dumpFields (PyFields.cons k v tl) ++
                    '\x7d' :: rest).head? = some '"' := by
                  rw [hZ]
                  simp
                have hmain : ((dumpFields (PyFields.cons k v tl) ++
                    '\x7d' :: rest).head? = some '\x7d') = False := by
                  rw [hhead]
                  simp
                simp only [show (('\x7b' : Char) = '"') = False from by decide,
                  show (('\x7b' : Char) = '\x7b') = True from by simp,
                  if_true, if_false, hmain,
                  ihm (PyFields.cons k v tl) rest (by simp) hg2.2 hf']
                have hnd : (PyFields.cons k v tl).keys.Nodup :=
                  (nodupKeys_iff _).mp hg2.1
                simp [pydict_nodup _ hnd]
      · -- the elements of a non-empty array
        intro xs rest hne hg hf
        cases xs with
        | nil => exact absurd rfl hne
        | cons v tl =>
            have hgv : goodJson v = true := by
              simp [goodJsonList] at hg
              exact hg.1
            have hgtl : goodJsonList tl = true := by
              simp [goodJsonList] at hg
              exact hg.2
            cases tl with
            | nil =>
                rw [show dumpItems (PyList.cons v .nil) = dumpVal v from rfl]
                have hfv : fuelVal v ≤ fuel := by
                  rw [show fuelElems (PyList.cons v .nil) =
                    1 + fuelVal v + 0 from rfl] at hf
                  omega
                simp only [parseElements]
                rw [ihv v (']' :: rest) hgv hfv
                  (numTerm_cons ']' rest (by decide) (by decide) (by decide)
                    (by decide))]
                have hsw : skipWs (']' :: rest) = ']' :: rest :=
                  skipWs_cons _ _ (by decide)
                simp [hsw]
            | cons w tl' =>
                rw [show dumpItems (PyList.cons v (PyList.cons w tl')) ++
                    ']' :: rest = dumpVal v ++ ',' :: ' ' ::
                    (dumpItems (PyList.cons w tl') ++ ']' :: rest) from by
                    rw [show dumpItems (PyList.cons v (PyList.cons w tl')) =
                      dumpVal v ++ ',' :: ' ' :: dumpItems (PyList.cons w tl')
                      from rfl]
                    simp]
                have hfv : fuelVal v ≤ fuel := by
                  rw [show fuelElems (PyList.cons v (PyList.cons w tl')) =
                    1 + fuelVal v + fuelElems (PyList.cons w tl') from rfl] at hf
                  omega
                have hftl : fuelElems (PyList.cons w tl') ≤ fuel := by
                  rw [show fuelElems (PyList.cons v (PyList.cons w tl')) =
                    1 + fuelVal v + fuelElems (PyList.cons w tl') from rfl] at hf
                  omega
                simp only [parseElements]
                rw [ihv v _ hgv hfv
                  (numTerm_cons ',' _ (by decide) (by decide) (by decide)
                    (by decide))]
                have hsw1 : skipWs (',' :: ' ' ::
                    (dumpItems (PyList.cons w tl') ++ ']' :: rest)) =
                    ',' :: ' ' :: (dumpItems (PyList.cons w tl') ++ ']' :: rest) :=
                  skipWs_cons _ _ (by decide)
                have hsw2 : skipWs (' ' ::
                    (dumpItems (PyList.cons w tl') ++ ']' :: rest)) =
                    dumpItems (PyList.cons w tl') ++ ']' :: rest := by
                  rw [skipWs_space, skipWs_dumpItems]
                have hrec := ihe (PyList.cons w tl') rest (by simp) hgtl hftl
                simp [hsw1, hsw2, hrec]
      · -- the members of a non-empty object
        intro fs rest hne hg hf
        cases fs with
        | nil => exact absurd rfl hne
        | cons k v tl =>
            have hgv : goodJson v = true := by
              simp [goodJsonFields] at hg
              exact hg.1
            have hgtl : goodJsonFields tl = true := by
              simp [goodJsonFields] at hg
              exact hg.2
            cases tl with
            | nil =>
                rw [show dumpFields (PyFields.cons k v .nil) ++ '\x7d' :: rest =
                  '"' :: (escapeChars k.data ++ '"' :: (':' :: ' ' ::
                    (dumpVal v ++ '\x7d' :: rest))) from by
                    rw [show dumpFields (PyFields.cons k v .nil) =
                      encodeStr k ++ ':' :: ' ' :: dumpVal v from rfl, encodeStr]
                    simp]
                have hfv : fuelVal v ≤ fuel := by
                  rw [show fuelMembers (PyFields.cons k v .nil) =
                    1 + fuelVal v + 0 from rfl] at hf
                  omega
                simp only [parseMembers]
                rw [parseStringBody_escapeChars k.data]
                have hsw1 : skipWs (':' :: ' ' :: (dumpVal v ++ '\x7d' :: rest)) =
                    ':' :: ' ' :: (dumpVal v ++ '\x7d' :: rest) :=
                  skipWs_cons _ _ (by decide)
                have hsw2 : skipWs (' ' :: (dumpVal v ++ '\x7d' :: rest)) =
                    dumpVal v ++ '\x7d' :: rest := by
                  rw [skipWs_space, skipWs_dumpVal]
                have hv1 := ihv v ('\x7d' :: rest) hgv hfv
                  (numTerm_cons '\x7d' _ (by decide) (by decide) (by decide)
                    (by decide))
                have hsw3 : skipWs ('\x7d' :: rest) = '\x7d' :: rest :=
                  skipWs_cons _ _ (by decide)
                simp [hsw1, hsw2, hsw3, hv1]
            | cons k2 w tl' =>
                have hfv : fuelVal v ≤ fuel := by
                  rw [show fuelMembers (PyFields.cons k v (PyFields.cons k2 w tl')) =
                    1 + fuelVal v + fuelMembers (PyFields.cons k2 w tl')
                    from rfl] at hf
                  omega
                have hftl : fuelMembers (PyFields.cons k2 w tl') ≤ fuel := by
                  rw [show fuelMembers (PyFields.cons k v (PyFields.cons k2 w tl')) =
                    1 + fuelVal v + fuelMembers (PyFields.cons k2 w tl')
                    from rfl] at hf
                  omega
                rw [show dumpFields (PyFields.cons k v (PyFields.cons k2 w tl')) ++
                    '\x7d' :: rest =
                    '"' :: (escapeChars k.data ++ '"' :: (':' :: ' ' ::
                      (dumpVal v ++ ',' :: ' ' ::
                        (dumpFields (PyFields.cons k2 w tl') ++ '\x7d' :: rest))))
                  from by
                    rw [show dumpFields (PyFields.cons k v (PyFields.cons k2 w tl')) =
                      encodeStr k ++ ':' :: ' ' :: dumpVal v ++ ',' :: ' ' ::
                        dumpFields (PyFields.cons k2 w tl') from rfl, encodeStr]
                    simp]
                simp only [parseMembers]
                rw [parseStringBody_escapeChars k.data]
                have hsw1 : skipWs (':' :: ' ' :: (dumpVal v ++ ',' :: ' ' ::
                    (dumpFields (PyFields.cons k2 w tl') ++ '\x7d' :: rest))) =
                    ':' :: ' ' :: (dumpVal v ++ ',' :: ' ' ::
                    (dumpFields (PyFields.cons k2 w tl') ++ '\x7d' :: rest)) :=
                  skipWs_cons _ _ (by decide)
                have hsw2 : skipWs (' ' :: (dumpVal v ++ ',' :: ' ' ::
                    (dumpFields (PyFields.cons k2 w tl') ++ '\x7d' :: rest))) =
                    dumpVal v ++ ',' :: ' ' ::
                    (dumpFields (PyFields.cons k2 w tl') ++ '\x7d' :: rest) := by
                  rw [skipWs_space, skipWs_dumpVal]
                have hv1 := ihv v (',' :: ' ' ::
                    (dumpFields (PyFields.cons k2 w tl') ++ '\x7d' :: rest))
                  hgv hfv (numTerm_cons ',' _ (by decide) (by decide)
                    (by decide) (by decide))
                have hsw3 : skipWs (',' :: ' ' ::
                    (dumpFields (PyFields.cons k2 w tl') ++ '\x7d' :: rest)) =
                    ',' :: ' ' ::
                    (dumpFields (PyFields.cons k2 w tl') ++ '\x7d' :: rest) :=
                  skipWs_cons _ _ (by decide)
                have hsw4 : skipWs (' ' ::
                    (dumpFields (PyFields.cons k2 w tl') ++ '\x7d' :: rest)) =
                    dumpFields (PyFields.cons k2 w tl') ++ '\x7d' :: rest := by
                  rw [skipWs_space, skipWs_dumpFields]
                have hrec := ihm (PyFields.cons k2 w tl') rest (by simp) hgtl hftl
                simp [hsw1, hsw2, hsw3, hsw4, hv1, hrec]
/-- `json.loads` inverts `json.dumps` on the JSON-native domain. -/
theorem json_loads_str_dumps (v : PyVal) (h : goodJson v = true) :
    json_loads_str (json_dumps v) = some v := by
  rw [json_loads_str]
  have hdata : (json_dumps v).data = dumpVal v := rfl
  rw [hdata]
  have hfuel : fuelVal v ≤ (dumpVal v).length + 1 :=
    le_trans (fuelVal_le_length v) (Nat.le_succ _)
  have hsw : skipWs (dumpVal v) = dumpVal v := by
    have h2 := skipWs_dumpVal v []
    simpa using h2
  rw [hsw]
  have hp := (parse_dump ((dumpVal v).length + 1)).1 v [] h hfuel numTerm_nil
  rw [List.append_nil] at hp
  rw [hp]
  simp [skipWs]

/-- `json.loads` only fails with `JSONDecodeError` (bad text) or `TypeError`
(non-text input). -/
theorem json_loads_error_kind (x : PyVal) (e : PyExc)
    (h : json_loads x = .error e) :
    e.kind = "JSONDecodeError" ∨ e.kind = "TypeError" := by
  cases x with
  | str s =>
      rw [json_loads] at h
      cases hj : json_loads_str s with
      | some v => rw [hj] at h; simp at h
      | none =>
          rw [hj] at h
          simp at h
          left
          rw [← h]
  | none => right; simp [json_loads] at h; rw [← h]
  | bool b => right; simp [json_loads] at h; rw [← h]
  | int n => right; simp [json_loads] at h; rw [← h]
  | float q => right; simp [json_loads] at h; rw [← h]
  | nan => right; simp [json_loads] at h; rw [← h]
  | inf => right; simp [json_loads] at h; rw [← h]
  | ninf => right; simp [json_loads] at h; rw [← h]
  | list xs => right; simp [json_loads] at h; rw [← h]
  | dict fs => right; simp [json_loads] at h; rw [← h]
/-! ### `flatten_dict` and the leaves of a nested mapping -/

theorem keys_listToFields (l : List (String × PyVal)) :
    (listToFields l).keys = l.map Prod.fst := by
  induction l with
  | nil => rfl
  | cons kv tl ih =>
      obtain ⟨k, v⟩ := kv
      simp [listToFields, PyFields.keys, ih]

theorem listToFields_append (l1 l2 : List (String × PyVal)) :
    listToFields (l1 ++ l2) = pfAppend (listToFields l1) (listToFields l2) := by
  induction l1 with
  | nil => rfl
  | cons kv tl ih =>
      obtain ⟨k, v⟩ := kv
      simp [listToFields, pfAppend, ih]

theorem length_listToFields (l : List (String × PyVal)) :
    (listToFields l).length = l.length := by
  induction l with
  | nil => rfl
  | cons kv tl ih =>
      obtain ⟨k, v⟩ := kv
      simp [listToFields, PyFields.length, ih]
      omega

mutual
/-- The items contributed by one entry are exactly the leaves below it,
keyed by their joined paths, provided those joined keys are pairwise
distinct. -/
theorem flattenEntry_leaves : ∀ (k : String) (v : PyVal) (p separator : String),
    ((leavesVal v).map (fun l => joinKey p separator (k :: l.1))).Nodup →
    flattenEntry k v p separator =
      listToFields ((leavesVal v).map
        (fun l => (joinKey p separator (k :: l.1), l.2)))
  | k, .dict fs, p, separator, hnd => by
      have hstep : ∀ l : List String × PyVal,
          joinKey p separator (k :: l.1) =
          joinKey (if p = "" then k else p ++ separator ++ k) separator l.1 :=
        fun l => rfl
      have hnd' : ((leavesFields fs).map (fun l =>
          joinKey (if p = "" then k else p ++ separator ++ k) separator
            l.1)).Nodup := by
        have : (leavesVal (.dict fs)).map
            (fun l => joinKey p separator (k :: l.1)) =
            (leavesFields fs).map (fun l =>
              joinKey (if p = "" then k else p ++ separator ++ k) separator
                l.1) := by
          rw [show leavesVal (.dict fs) = leavesFields fs from rfl]
          simp only [hstep]
        rw [← this]
        exact hnd
      have hrec := flattenItems_leaves fs
        (if p = "" then k else p ++ separator ++ k) separator hnd'
      rw [show flattenEntry k (.dict fs) p separator =
        pydict (flattenItems fs (if p = "" then k else p ++ separator ++ k)
          separator) from rfl, hrec]
      rw [pydict_nodup]
      · rfl
      · rw [keys_listToFields, List.map_map]
        exact hnd'
  | k, .none, p, separator, _ => rfl
  | k, .bool b, p, separator, _ => rfl
  | k, .int n, p, separator, _ => rfl
  | k, .float q, p, separator, _ => rfl
  | k, .nan, p, separator, _ => rfl
  | k, .inf, p, separator, _ => rfl
  | k, .ninf, p, separator, _ => rfl
  | k, .str s, p, separator, _ => rfl
  | k, .list xs, p, separator, _ => rfl
/-- The item list built by `flatten_dict` is exactly the list of leaves of
the input, keyed by their joined paths, provided those keys are pairwise
distinct. -/
theorem flattenItems_leaves : ∀ (d : PyFields) (p separator : String),
    ((leavesFields d).map (fun l => joinKey p separator l.1)).Nodup →
    flattenItems d p separator =
      listToFields ((leavesFields d).map
        (fun l => (joinKey p separator l.1, l.2)))
  | .nil, p, separator, _ => rfl
  | .cons k v tl, p, separator, hnd => by
      rw [show leavesFields (.cons k v tl) =
        (leavesVal v).map (fun pv => (k :: pv.1, pv.2)) ++ leavesFields tl
        from rfl] at hnd ⊢
      rw [List.map_append, List.map_map] at hnd
      have hnd1 : ((leavesVal v).map
          (fun l => joinKey p separator (k :: l.1))).Nodup := by
        have := (List.nodup_append.mp hnd).1
        simpa [Function.comp] using this
      have hnd2 : ((leavesFields tl).map
          (fun l => joinKey p separator l.1)).Nodup :=
        (List.nodup_append.mp hnd).2.1
      have h1 := flattenEntry_leaves k v p separator hnd1
      have h2 := flattenItems_leaves tl p separator hnd2
      rw [show flattenItems (.cons k v tl) p separator =
        pfAppend (flattenEntry k v p separator)
          (flattenItems tl p separator) from rfl, h1, h2,
        List.map_append, List.map_map, listToFields_append]
      rfl
end

/-- `flatten_dict` on a mapping whose leaves have pairwise-distinct joined
keys: the result is exactly one entry per leaf, keyed by the joined path to
that leaf (and in particular has as many entries as there are leaves). -/
theorem flatten_dict_eq_leaves (d : PyFields) (separator : String)
    (h : ((leavesFields d).map (fun l => joinKey "" separator l.1)).Nodup) :
    flatten_dict d "" separator =
      listToFields ((leavesFields d).map
        (fun l => (joinKey "" separator l.1, l.2))) ∧
    (flatten_dict d "" separator).length = (leavesFields d).length := by
  have hmain := flattenItems_leaves d "" separator h
  have hkeys : (listToFields ((leavesFields d).map
      (fun l => (joinKey "" separator l.1, l.2)))).keys.Nodup := by
    rw [keys_listToFields, List.map_map]
    exact h
  constructor
  · rw [flatten_dict, hmain, pydict_nodup _ hkeys]
  · rw [flatten_dict, hmain, pydict_nodup _ hkeys, length_listToFields,
      List.length_map]
/-! ### The retry loop on an always-failing operation -/

/-- Running the attempt loop with `r + 1` iterations left over an operation
that raises a retryable failure on every attempt: every iteration runs, the
loop exits by re-raising the failure of the final attempt, and the
operation is invoked once per iteration. -/
theorem retryLoop_allfail {α : Type} (f : Nat → PyExc) (retryable : PyExc → Bool)
    (hf : ∀ i, retryable (f i) = true) (maxAttempts : Int) (backoff : ℚ) :
    ∀ (r attempt : Nat) (curDelay : ℚ) (lastExc : Option PyExc)
      (sleeps : List ℚ) (calls : Nat),
      (retryLoop (α := α) (fun i => Except.error (f i)) retryable maxAttempts
        backoff attempt (r + 1) curDelay lastExc sleeps calls).outcome =
          .raised (f (attempt + r)) ∧
      (retryLoop (α := α) (fun i => Except.error (f i)) retryable maxAttempts
        backoff attempt (r + 1) curDelay lastExc sleeps calls).calls =
          calls + r + 1 := by
  intro r
  induction r with
  | zero =>
      intro attempt curDelay lastExc sleeps calls
      rw [retryLoop]
      by_cases hlt : (attempt : Int) < maxAttempts - 1 <;>
        simp [hf, hlt, retryLoop]
  | succ r ih =>
      intro attempt curDelay lastExc sleeps calls
      rw [retryLoop]
      by_cases hlt : (attempt : Int) < maxAttempts - 1
      · simp only [hf, if_pos hlt, if_true]
        have h2 := ih (attempt + 1) (curDelay * backoff) (some (f attempt))
          (sleeps ++ [curDelay]) (calls + 1)
        refine ⟨?_, ?_⟩
        · rw [h2.1]
          congr 2
          omega
        · rw [h2.2]
          omega
      · simp only [hf, if_neg hlt, if_true]
        have h2 := ih (attempt + 1) curDelay (some (f attempt)) sleeps
          (calls + 1)
        refine ⟨?_, ?_⟩
        · rw [h2.1]
          congr 2
          omega
        · rw [h2.2]
          omega
/-! ### Claim theorems -/

/-- C1: for every `max_attempts = n ≥ 1` and every operation raising a
retryable failure on each invocation, the wrapper invokes the operation
exactly `n` times and then re-raises the failure of the `n`-th (last)
attempt — `f (n - 1)`, not `f 0`. -/
theorem retry_exhaustion_reraises_last {α : Type} (n : Int) (hn : 1 ≤ n)
    (delay backoff : ℚ) (retryable : PyExc → Bool) (f : Nat → PyExc)
    (hf : ∀ i, retryable (f i) = true) :
    (retryRun (α := α) n delay backoff retryable
      (fun i => Except.error (f i))).calls = n.toNat ∧
    (retryRun (α := α) n delay backoff retryable
      (fun i => Except.error (f i))).outcome =
        .raised (f (n.toNat - 1)) := by
  have hr : n.toNat = (n.toNat - 1) + 1 := by omega
  have h := retryLoop_allfail (α := α) f retryable hf n backoff (n.toNat - 1) 0
    delay Option.none [] 0
  constructor
  · rw [retryRun, hr, h.2]
    omega
  · rw [retryRun, hr, h.1]
    congr 2
    omega

/-- Witness for C1 at `n = 3` with per-attempt failure messages. -/
theorem retry_exhaustion_reraises_last_witness :
    (1 : Int) ≤ 3 ∧
    ((retryRun (α := Unit) 3 1 2 (fun _ => true)
      (fun i => Except.error ⟨"Exception", toString i⟩)).calls =
        (3 : Int).toNat ∧
     (retryRun (α := Unit) 3 1 2 (fun _ => true)
      (fun i => Except.error ⟨"Exception", toString i⟩)).outcome =
        .raised ⟨"Exception", toString ((3 : Int).toNat - 1)⟩) :=
  ⟨by decide, retry_exhaustion_reraises_last (α := Unit) 3 (by decide) 1 2
    (fun _ => true) (fun i => ⟨"Exception", toString i⟩) (fun _ => rfl)⟩

/-- C7: an operation that raises retryable failures on its first two
invocations and succeeds on the third, wrapped with
`retry(max_attempts=3, delay=1.0, backoff=2.0)`, returns the third
invocation's value after exactly two sleeps of 1.0 and then 2.0 seconds,
with no third sleep and exactly three invocations. -/
theorem retry_two_failures_then_success {α : Type} (v : α) (e1 e2 : PyExc)
    (retryable : PyExc → Bool) (h1 : retryable e1 = true)
    (h2 : retryable e2 = true) :
    retryRun 3 1 2 retryable
      (fun i => if i = 0 then Except.error e1
        else if i = 1 then Except.error e2 else Except.ok v) =
      ⟨.ok v, [1, 2], 3⟩ := by
  simp [retryRun, retryLoop, h1, h2]

/-- Witness for C7 at concrete failures and success value. -/
theorem retry_two_failures_then_success_witness :
    (fun _ : PyExc => true) ⟨"E", "first"⟩ = true ∧
    (fun _ : PyExc => true) ⟨"E", "second"⟩ = true ∧
    retryRun (α := Nat) 3 1 2 (fun _ => true)
      (fun i => if i = 0 then Except.error ⟨"E", "first"⟩
        else if i = 1 then Except.error ⟨"E", "second"⟩ else Except.ok 42) =
      ⟨.ok 42, [1, 2], 3⟩ :=
  ⟨rfl, rfl, retry_two_failures_then_success 42 ⟨"E", "first"⟩ ⟨"E", "second"⟩
    (fun _ => true) rfl rfl⟩

/-- C9: with `max_attempts ≤ 0` the loop body never runs: the wrapped
operation is never invoked, nothing is slept, and the wrapper ends at
`raise last_exception` with `last_exception` still `None`, so the call
always fails (in Python, raising `None` is itself a `TypeError`) and never
returns a value. -/
theorem retry_nonpositive_never_calls {α : Type} (n : Int) (hn : n ≤ 0)
    (delay backoff : ℚ) (retryable : PyExc → Bool)
    (op : Nat → Except PyExc α) :
    retryRun n delay backoff retryable op = ⟨.raisedNone, [], 0⟩ := by
  rw [retryRun, show n.toNat = 0 from by omega, retryLoop]

/-- Witness for C9 at `n = -2` over an operation that would succeed. -/
theorem retry_nonpositive_never_calls_witness :
    (-2 : Int) ≤ 0 ∧
    retryRun (α := Nat) (-2) 1 2 (fun _ => true) (fun _ => Except.ok 7) =
      ⟨.raisedNone, [], 0⟩ :=
  ⟨by decide, retry_nonpositive_never_calls (-2) (by decide) 1 2
    (fun _ => true) (fun _ => Except.ok 7)⟩

/-- C10: for every list and every negative `chunk_size`,
`chunk_list(lst, chunk_size)` returns the empty list without raising —
`range(0, len(lst), chunk_size)` with a negative step is empty. -/
theorem chunk_list_negative_size {α : Type} (lst : List α) (k : Int)
    (hk : k < 0) : chunk_list lst k = .ok [] := by
  rw [chunk_list, if_neg (by omega), pyRange, pyRangeLen, if_neg (by omega),
    if_pos (by omega)]
  simp

/-- Witness for C10 on a non-empty list with `chunk_size = -1`. -/
theorem chunk_list_negative_size_witness :
    (-1 : Int) < 0 ∧ chunk_list ([1, 2, 3] : List Int) (-1) = .ok [] :=
  ⟨by decide, chunk_list_negative_size [1, 2, 3] (-1) (by decide)⟩

/-- C6: `get_nested_value(d, p, default=x)` (with the default `"."`
separator) returns the value reached by descending through `d` along the
separator-split keys of `p` when every step finds the key inside a dict
(`walkPath` returns `some`), and returns `x` whenever any segment is absent
or an intermediate value is not a dict (`walkPath` returns `none`); the
embedding is a total function, so no exception is possible. -/
theorem get_nested_value_walks (d : PyVal) (keyPath : String)
    (default : PyVal) :
    get_nested_value d keyPath default "." =
      (walkPath d (pySplit keyPath ".")).getD default := by
  rw [get_nested_value, getNestedLoop_eq_walkPath]

/-- C3: `safe_json_loads` never raises — it always returns a value — and
whenever `json.loads` fails (malformed JSON text, or an input that is not a
parseable textual type) it returns the caller-supplied default. -/
theorem safe_json_loads_never_raises (x d : PyVal) :
    (∃ v, safe_json_loads x d = .ok v) ∧
    (∀ e, json_loads x = .error e → safe_json_loads x d = .ok d) := by
  constructor
  · cases hj : json_loads x with
    | ok v => exact ⟨v, by simp [safe_json_loads, hj]⟩
    | error e =>
        refine ⟨d, ?_⟩
        rcases json_loads_error_kind x e hj with h | h <;>
          simp [safe_json_loads, hj, h]
  · intro e he
    rcases json_loads_error_kind x e he with h | h <;>
      simp [safe_json_loads, he, h]

/-- Witness for C3: malformed text maps to the default. -/
theorem safe_json_loads_never_raises_witness :
    safe_json_loads (.str "not json") (.dict .nil) = .ok (.dict .nil) :=
  (safe_json_loads_never_raises (.str "not json") (.dict .nil)).2
    ⟨"JSONDecodeError", "Expecting value"⟩ (by rfl)

/-- C4: decoding the encoding gives the value back,
`safe_json_loads(safe_json_dumps(v)) == v`, for every value in the
JSON-native domain (`goodJson`: no floats — binary floating point is
outside the embedding — and dicts with pairwise-distinct keys, as every
real Python dict has).  Values hitting the encoder's string-coercion
fallback are exactly the claim's stated exception and lie outside
`goodJson`. -/
theorem safe_json_roundtrip (v d : PyVal) (h : goodJson v = true) :
    safe_json_loads (.str (safe_json_dumps v "\x7b\x7d")) d = .ok v := by
  rw [show safe_json_dumps v "\x7b\x7d" = json_dumps v from rfl]
  simp [safe_json_loads, json_loads, json_loads_str_dumps v h]

/-- Witness for C4 on a nested mixed-type value. -/
theorem safe_json_roundtrip_witness :
    goodJson (.dict (.cons "a" (.list (.cons (.int 1) (.cons (.bool true)
      (.cons PyVal.none (.cons (.str "x\nü") .nil)))))
      (.cons "b" (.dict .nil) .nil))) = true ∧
    safe_json_loads (.str (safe_json_dumps (.dict (.cons "a"
      (.list (.cons (.int 1) (.cons (.bool true) (.cons PyVal.none
        (.cons (.str "x\nü") .nil)))))
      (.cons "b" (.dict .nil) .nil))) "\x7b\x7d")) PyVal.none =
      .ok (.dict (.cons "a" (.list (.cons (.int 1) (.cons (.bool true)
        (.cons PyVal.none (.cons (.str "x\nü") .nil)))))
        (.cons "b" (.dict .nil) .nil))) :=
  ⟨by decide, safe_json_roundtrip _ PyVal.none (by decide)⟩

/-- C2: the handler never raises — for every event it returns a response —
and any failure in `process_event_data` is converted into the 500 envelope:
statusCode 500, the fixed `Content-Type` header, and a body string whose
decoded form has an `error` field holding `str(e)`. -/
theorem lambda_handler_catches_all (event : PyVal) :
    (∃ r, lambda_handler event = .ok r) ∧
    (∀ e, process_event_data event = .error e →
      lambda_handler event = .ok (errorResponse e) ∧
      pyIndex (errorResponse e) "statusCode" = .int 500 ∧
      pyIndex (errorResponse e) "headers" = contentTypeHeaders ∧
      ∃ body decoded, pyIndex (errorResponse e) "body" = .str body ∧
        json_loads_str body = some decoded ∧
        pyIndex decoded "error" = .str e.msg) := by
  constructor
  · cases hp : process_event_data event with
    | ok p => exact ⟨successResponse p, by simp [lambda_handler, hp]⟩
    | error e => exact ⟨errorResponse e, by simp [lambda_handler, hp]⟩
  · intro e he
    refine ⟨by simp [lambda_handler, he], rfl, rfl, ?_⟩
    refine ⟨json_dumps (.dict (.cons "error" (.str e.msg)
      (.cons "message" (.str "Internal server error") .nil))), _, rfl,
      json_loads_str_dumps _ rfl, rfl⟩

/-- Witness for C2: an event whose non-string, non-dict body makes
`flatten_dict` fail inside `process_event_data`. -/
theorem lambda_handler_catches_all_witness :
    process_event_data (.dict (.cons "body" (.int 5) .nil)) =
      .error ⟨"AttributeError", "object has no attribute items"⟩ ∧
    lambda_handler (.dict (.cons "body" (.int 5) .nil)) =
      .ok (errorResponse ⟨"AttributeError", "object has no attribute items"⟩) := by
  have h := (lambda_handler_catches_all (.dict (.cons "body" (.int 5) .nil))).2
    ⟨"AttributeError", "object has no attribute items"⟩ (by rfl)
  exact ⟨by rfl, h.1⟩

/-- C8: on the scenario event the handler returns status 200 with the fixed
header, and the response body decodes to a mapping whose `data` carries
`user_id = "u1"` and `action = "go"` (the handler nests the extracted
fields under the `data` key of the serialized `LambdaResponse`). -/
theorem handler_success_scenario :
    ∃ body decoded,
      lambda_handler c8Event = .ok (.dict (.cons "statusCode" (.int 200)
        (.cons "headers" contentTypeHeaders
        (.cons "body" (.str body) .nil)))) ∧
      json_loads_str body = some decoded ∧
      pyIndex (pyIndex decoded "data") "user_id" = .str "u1" ∧
      pyIndex (pyIndex decoded "data") "action" = .str "go" := by
  refine ⟨json_dumps c8ResponseData, c8ResponseData, ?_, ?_, ?_, ?_⟩
  · rfl
  · exact json_loads_str_dumps c8ResponseData (by decide)
  · decide
  · decide

/-- C5 counterexample: the dict `{"a": {"b": 1}, "a.b": 2}` (a genuine
Python dict, keys distinct at every level) has two non-mapping leaves but
its flattening has a single entry: the two leaves' dot-joined paths
collide at `"a.b"` and `dict(items)` keeps only the last, so flattening
does not contain one entry per leaf. -/
theorem flatten_collision_counterexample :
    nodupKeys flattenCollisionInput.keys = true ∧
    (leavesFields flattenCollisionInput).length = 2 ∧
    (flatten_dict flattenCollisionInput "" ".").length = 1 ∧
    flatten_dict flattenCollisionInput "" "." =
      .cons "a.b" (.int 2) .nil := by
  refine ⟨rfl, rfl, ?_, ?_⟩ <;> decide

/-- C5 (amended): provided the separator-joined paths of the leaves are
pairwise distinct (no key collisions), `flatten_dict` contains exactly one
entry per non-mapping leaf reachable in `d`, each keyed by the joined path
from the root to that leaf, in depth-first entry order. -/
theorem flatten_dict_one_entry_per_leaf (d : PyFields) (separator : String)
    (h : ((leavesFields d).map (fun l => joinKey "" separator l.1)).Nodup) :
    flatten_dict d "" separator =
      listToFields ((leavesFields d).map
        (fun l => (joinKey "" separator l.1, l.2))) ∧
    (flatten_dict d "" separator).length = (leavesFields d).length :=
  flatten_dict_eq_leaves d separator h

/-- Witness for the amended C5 on a nested two-leaf mapping. -/
theorem flatten_dict_one_entry_per_leaf_witness :
    ((leavesFields (.cons "a" (.dict (.cons "b" (.int 1) .nil))
      (.cons "c" (.int 2) .nil))).map
        (fun l => joinKey "" "." l.1)).Nodup ∧
    (flatten_dict (.cons "a" (.dict (.cons "b" (.int 1) .nil))
      (.cons "c" (.int 2) .nil)) "" "." =
      listToFields ((leavesFields (.cons "a" (.dict (.cons "b" (.int 1) .nil))
        (.cons "c" (.int 2) .nil))).map
          (fun l => (joinKey "" "." l.1, l.2))) ∧
     (flatten_dict (.cons "a" (.dict (.cons "b" (.int 1) .nil))
       (.cons "c" (.int 2) .nil)) "" ".").length =
       (leavesFields (.cons "a" (.dict (.cons "b" (.int 1) .nil))
         (.cons "c" (.int 2) .nil))).length) :=
  ⟨by decide, flatten_dict_one_entry_per_leaf
    (.cons "a" (.dict (.cons "b" (.int 1) .nil)) (.cons "c" (.int 2) .nil))
    "." (by decide)⟩
